import Mathlib

/- Verification of the hmm crate's core: the Vector/Matrix containers of
   src/matrices.rs and the Hidden Markov model with its Viterbi decoder of
   src/models.rs, as a shallow embedding.  f64 values are modeled by an
   arbitrary linearly ordered additive commutative group α (instantiated at ℝ
   for the concrete -log2 cost model and at ℤ for executable witnesses); the
   f64 operation -log2 is a parameter mlog of the constructions that apply it,
   instantiated at fun x => -Real.logb 2 x where the claim needs it. -/

namespace Hmm

variable {α : Type} [LinearOrderedAddCommGroup α]

/-- Embeds struct Vector of src/matrices.rs: a wrapper around a Vec of f64. -/
structure Vector (α : Type) where
  data : List α
  deriving DecidableEq

/-- Vector::new. -/
def Vector.new (v : List α) : Vector α := ⟨v⟩

/-- Vector::len. -/
def Vector.len (v : Vector α) : Nat := v.data.length

/-- Vector::get: the source indexes self.data[i], which panics out of range;
    every use in the decoder is in range (claim C10), out of range we give 0. -/
def Vector.get (v : Vector α) (i : Nat) : α := v.data.getD i 0

/-- Vector::is_positive: no entry is negative. -/
def Vector.is_positive (v : Vector α) : Bool :=
  !(v.data.any (fun item => decide (item < 0)))

/-- Vector::add_vector: elementwise add; zip truncates to the shorter input. -/
def Vector.add_vector (v u : Vector α) : Vector α :=
  ⟨List.zipWith (fun x y => x + y) v.data u.data⟩

/-- Vector::minus_log: the -log2 transform (parameter mlog) applied entrywise. -/
def Vector.minus_log (v : Vector α) (mlog : α → α) : Vector α :=
  ⟨v.data.map mlog⟩

/-- The loop of Vector::argmin: i is the index of the next element, p the
    current (min_index, min_value) pair; strictly-less replaces, a tie keeps
    the earlier index. -/
def argminAux : Nat → Nat × α → List α → Nat × α
  | _, p, [] => p
  | i, p, x :: xs => argminAux (i + 1) (if x < p.2 then (i, x) else p) xs

/-- Vector::argmin: min_value starts at self.data[0] and min_index at 0, and
    the loop scans the whole vector (its first pass over data[0] never
    replaces).  The source panics on an empty vector; we return 0 there. -/
def Vector.argmin (v : Vector α) : Nat :=
  match v.data with
  | [] => 0
  | x :: _ => (argminAux 0 (0, x) v.data).1

/-- Embeds struct Matrix of src/matrices.rs. -/
structure Matrix (α : Type) where
  rows : Nat
  cols : Nat
  data : List (List α)
  deriving DecidableEq

/-- Matrix::new: rejects an empty row list and ragged rows; cols is the length
    of the first row. -/
def Matrix.new (data : List (List α)) : Option (Matrix α) :=
  if data.length < 1 then none
  else
    let cols := (data.headD []).length
    if data.any (fun r => decide (r.length ≠ cols)) then none
    else some ⟨data.length, cols, data⟩

/-- Matrix::is_positive: no entry anywhere is negative. -/
def Matrix.is_positive (m : Matrix α) : Bool :=
  !(m.data.any (fun r => r.any (fun item => decide (item < 0))))

/-- Matrix::minus_log: entrywise -log2 (parameter mlog), shape preserved. -/
def Matrix.minus_log (m : Matrix α) (mlog : α → α) : Matrix α :=
  ⟨m.rows, m.cols, m.data.map (fun r => r.map mlog)⟩

/-- Matrix::column: copy of one column, guarded by the column count.  The
    source indexes r[index] in every row, safe on a rectangular matrix once
    the guard passed; a row that is still shorter would panic, we give 0. -/
def Matrix.column (m : Matrix α) (index : Nat) : Option (Vector α) :=
  if m.cols ≤ index then none
  else some ⟨m.data.map (fun r => r.getD index 0)⟩

/-- The loop of Matrix::add_to_columns: while i < n row i gets v[i] added to
    each entry, remaining rows are kept.  The source's inner loop runs over
    j in 0..cols, which on a rectangular matrix is the whole row. -/
def addColsAux (v : Vector α) (n : Nat) : Nat → List (List α) → List (List α)
  | _, [] => []
  | i, row :: rest =>
    (if i < n then row.map (fun x => x + v.get i) else row) :: addColsAux v n (i + 1) rest

/-- Matrix::add_to_columns — the row-broadcast add (the spec's add_to_rows):
    n = min(rows, v.len()), rows past n are unchanged. -/
def Matrix.add_to_columns (m : Matrix α) (v : Vector α) : Matrix α :=
  ⟨m.rows, m.cols, addColsAux v (min m.rows v.len) 0 m.data⟩

/-- The comparison item < v[j] of the column reductions: the accumulator slot
    starts at f64::MAX, which strictly bounds every value of the idealized
    model, so the sentinel is modeled by none (always replaced). -/
def ltSentinel (x : α) : Option α → Bool
  | none => true
  | some v => decide (x < v)

/-- Inner loop of Matrix::min_by_column over one row: slot j is lowered to the
    row's j-th entry when that is strictly smaller; slots beyond the row's
    length are kept (a row longer than the accumulator would panic in the
    source and is cut off here; rectangular inputs have neither). -/
def minColUpd : List (Option α) → List α → List (Option α)
  | [], _ => []
  | acc, [] => acc
  | a :: acc, x :: xs => (if ltSentinel x a then some x else a) :: minColUpd acc xs

/-- Outer loop of Matrix::min_by_column over the rows. -/
def minColAux : List (Option α) → List (List α) → List (Option α)
  | acc, [] => acc
  | acc, row :: rest => minColAux (minColUpd acc row) rest

/-- Matrix::min_by_column: v starts as cols copies of f64::MAX.  A slot no row
    ever touched would still hold MAX, a value with no counterpart in α; it is
    read back as 0 — unreachable on a constructed matrix (rows ≥ 1,
    rectangular). -/
def Matrix.min_by_column (m : Matrix α) : Vector α :=
  ⟨(minColAux (List.replicate m.cols none) m.data).map (fun o => o.getD 0)⟩

/-- Inner loop of Matrix::argmin_by_column over one row (row index i): the
    value slot is as in min_by_column, the index slot records i on update. -/
def argColUpd (i : Nat) : List (Option α × Nat) → List α → List (Option α × Nat)
  | [], _ => []
  | acc, [] => acc
  | a :: acc, x :: xs =>
    (if ltSentinel x a.1 then (some x, i) else a) :: argColUpd i acc xs

/-- Outer loop of Matrix::argmin_by_column, rows enumerated from i. -/
def argColAux : Nat → List (Option α × Nat) → List (List α) → List (Option α × Nat)
  | _, acc, [] => acc
  | i, acc, row :: rest => argColAux (i + 1) (argColUpd i acc row) rest

/-- Matrix::argmin_by_column: v starts at f64::MAX (modeled none), args at 0. -/
def Matrix.argmin_by_column (m : Matrix α) : List Nat :=
  (argColAux 0 (List.replicate m.cols (none, 0)) m.data).map (fun p => p.2)

/-- The rectangularity invariant Matrix::new establishes and every Matrix in
    the program maintains: the stored row count matches the data and every row
    has exactly cols entries. -/
def Matrix.WF (m : Matrix α) : Prop :=
  m.data.length = m.rows ∧ ∀ r ∈ m.data, r.length = m.cols

instance matrixWFDecidable (m : Matrix α) : Decidable m.WF :=
  inferInstanceAs (Decidable (m.data.length = m.rows ∧ ∀ r ∈ m.data, r.length = m.cols))

/-- Embeds struct HiddenMarkov of src/models.rs: the validated model, all
    numeric content already in -log2 cost space. -/
structure HiddenMarkov (α : Type) where
  state_count : Nat
  labels_count : Nat
  init_states : Vector α
  state_transitions : Matrix α
  observation_model : Matrix α
  deriving DecidableEq

/-- HiddenMarkov::new: the validation sequence of src/models.rs (state count,
    then the three positivity checks), then the -log transform of all three
    containers. -/
def HiddenMarkov.new (mlog : α → α) (initials : Vector α) (transitions : Matrix α)
    (observation_model : Matrix α) : Option (HiddenMarkov α) :=
  let num_states := initials.len
  if num_states < 2 then none
  else if !initials.is_positive then none
  else if !transitions.is_positive then none
  else if !observation_model.is_positive then none
  else
    some ⟨num_states, observation_model.cols, initials.minus_log mlog,
          transitions.minus_log mlog, observation_model.minus_log mlog⟩

/-- HiddenMarkov::state_from_observation: column obs of the observation model.
    The source unwraps the Option — a panic when obs is out of range, shown
    unreachable for validated observations (claim C10); we default to the
    empty vector. -/
def HiddenMarkov.state_from_observation (hmm : HiddenMarkov α) (obs : Nat) : Vector α :=
  (hmm.observation_model.column obs).getD ⟨[]⟩

/-- HiddenMarkov::next_msg_and_traceback. -/
def HiddenMarkov.next_msg_and_traceback (hmm : HiddenMarkov α) (phi : Vector α) :
    Vector α × List Nat :=
  let mat := hmm.state_transitions.add_to_columns phi
  (mat.min_by_column, mat.argmin_by_column)

/-- The forward loop of map_estimate: last_msg is threaded through the steps,
    the traceback rows are collected in observation order. -/
def HiddenMarkov.viterbi_forward (hmm : HiddenMarkov α) :
    List Nat → Vector α → Vector α × List (List Nat)
  | [], msg => (msg, [])
  | obs :: rest, msg =>
    let phi := msg.add_vector (hmm.state_from_observation obs)
    let mt := hmm.next_msg_and_traceback phi
    let r := HiddenMarkov.viterbi_forward hmm rest mt.1
    (r.1, mt.2 :: r.2)

/-- The backward loop of map_estimate.  tbs holds the traceback rows from the
    last step down to the first; each step reads tracebacks[i][last_state]
    (in range by claim C10; out of range would panic in the source, here 0)
    and prepends it, building states[0..T-1] exactly as the source writes
    states[i] for i = T-1 down to 0. -/
def backtrack : List (List Nat) → Nat → List Nat → List Nat
  | [], _, acc => acc
  | t :: rest, last_state, acc =>
    let s := t.getD last_state 0
    backtrack rest s (s :: acc)

/-- HiddenMarkov::map_estimate: input validation, forward pass, selection of
    the final state by argmin, backward reconstruction. -/
def HiddenMarkov.map_estimate (hmm : HiddenMarkov α) (observations : List Nat) : List Nat :=
  if observations.length = 0 then []
  else if observations.any (fun x => decide (hmm.labels_count ≤ x)) then []
  else
    let fw := HiddenMarkov.viterbi_forward hmm observations hmm.init_states
    backtrack fw.2.reverse (Vector.argmin fw.1) []

/-- Spec side (§4.1): the minimum of a list of costs; 0 on the empty list
    (never consulted: every reduced list is nonempty). -/
def specMin : List α → α
  | [] => 0
  | x :: xs => xs.foldl min x

/-- Spec side (§4.1, §4.3): the first-occurrence index of the minimal
    element. -/
def specFirstArgmin (l : List α) : Nat :=
  l.findIdx (fun x => decide (x = specMin l))

/-- Spec side (§4.3 step 1, §4.1): one column of a cost table, one entry per
    row. -/
def specColumn (rows : List (List α)) (j : Nat) : List α :=
  rows.map (fun r => r.getD j 0)

/-- Spec side (§4.3 steps 1-5): one observation step of the log-cost Viterbi
    recurrence: combined = cost + emission column (elementwise), scored(i,j) =
    transition(i,j) + combined(i), the next cost vector is the column-wise
    minimum and the backpointer vector the column-wise first-occurrence
    argmin. -/
def specStep (S : Nat) (trans em : List (List α)) (cost : List α) (label : Nat) :
    List α × List Nat :=
  let emcol := specColumn em label
  let combined := List.zipWith (fun c e => c + e) cost emcol
  let scored := List.zipWith (fun row c => row.map (fun x => x + c)) trans combined
  ((List.range S).map (fun j => specMin (specColumn scored j)),
   (List.range S).map (fun j => specFirstArgmin (specColumn scored j)))

/-- Spec side (§4.3 step 6): the forward recurrence over all observations, the
    cost vector started at init_costs by the caller, tracebacks collected in
    observation order. -/
def specForward (S : Nat) (trans em : List (List α)) :
    List Nat → List α → List α × List (List Nat)
  | [], cost => (cost, [])
  | l :: rest, cost =>
    let st := specStep S trans em cost l
    let r := specForward S trans em rest st.1
    (r.1, st.2 :: r.2)

/-- Spec side (§4.3): backward reconstruction: state[t] =
    backpointer_t[last_state], then last_state = state[t], for t from T-1 down
    to 0 (bps holds the backpointer vectors in reversed order). -/
def specBackward : List (List Nat) → Nat → List Nat → List Nat
  | [], _, acc => acc
  | b :: rest, last_state, acc =>
    let s := b.getD last_state 0
    specBackward rest s (s :: acc)

/-- Spec side (§4.3): the full decode of a validated nonempty observation
    sequence: forward recurrence from init_costs, last_state = argmin of the
    final cost vector (first occurrence), backward reconstruction. -/
def specViterbi (hmm : HiddenMarkov α) (obs : List Nat) : List Nat :=
  let fw := specForward hmm.state_count hmm.state_transitions.data
      hmm.observation_model.data obs hmm.init_states.data
  specBackward fw.2.reverse (specFirstArgmin fw.1) []

/-- Proof device: the column-slot evolution of the argmin_by_column loops,
    slot (value, index) updated by successive column entries, entry index
    counted up from i. -/
def optAux : Nat → Option α × Nat → List α → Option α × Nat
  | _, a, [] => a
  | i, a, x :: xs => optAux (i + 1) (if ltSentinel x a.1 then (some x, i) else a) xs

/-- Characterization of the Vector::argmin loop started at element index i
    with current pair p: the resulting value is at most p.2 and at most every
    scanned element, and the result is either p itself (no strictly smaller
    element) or locates a strictly smaller element, every element scanned
    before it being strictly larger. -/
theorem argminAux_spec (l : List α) : ∀ (i : Nat) (p : Nat × α),
    (argminAux i p l).2 ≤ p.2 ∧
    (∀ k, ∀ _hk : k < l.length, (argminAux i p l).2 ≤ l.getD k 0) ∧
    (argminAux i p l = p ∨
      ∃ k, ∃ _hk : k < l.length, (argminAux i p l).1 = i + k ∧
        (argminAux i p l).2 = l.getD k 0 ∧ (argminAux i p l).2 < p.2 ∧
        ∀ k', k' < k → (argminAux i p l).2 < l.getD k' 0) := by
  induction l with
  | nil =>
    intro i p
    exact ⟨le_refl _, fun k hk => absurd hk (by simp), Or.inl rfl⟩
  | cons x xs ih =>
    intro i p
    simp only [argminAux]
    by_cases hx : x < p.2
    · rw [if_pos hx]
      obtain ⟨ha, hb, hc⟩ := ih (i + 1) (i, x)
      refine ⟨le_of_lt (lt_of_le_of_lt ha hx), ?_, ?_⟩
      · intro k hk
        cases k with
        | zero => simpa using ha
        | succ k => simpa using hb k (by simpa using hk)
      · right
        rcases hc with hc | ⟨k, hk, h1, h2, h3, h4⟩
        · exact ⟨0, by simp, by rw [hc]; simp, by rw [hc]; simp, by rw [hc]; exact hx,
            fun k' hk' => absurd hk' (by omega)⟩
        · refine ⟨k + 1, by simpa using hk, by rw [h1]; ring, by simpa using h2,
            lt_trans h3 hx, ?_⟩
          intro k' hk'
          cases k' with
          | zero => simpa using h3
          | succ k' => simpa using h4 k' (by omega)
    · rw [if_neg hx]
      obtain ⟨ha, hb, hc⟩ := ih (i + 1) p
      refine ⟨ha, ?_, ?_⟩
      · intro k hk
        cases k with
        | zero => simpa using le_trans ha (not_lt.mp hx)
        | succ k => simpa using hb k (by simpa using hk)
      · rcases hc with hc | ⟨k, hk, h1, h2, h3, h4⟩
        · exact Or.inl hc
        · refine Or.inr ⟨k + 1, by simpa using hk, by rw [h1]; ring,
            by simpa using h2, h3, ?_⟩
          intro k' hk'
          cases k' with
          | zero => simpa using lt_of_lt_of_le h3 (not_lt.mp hx)
          | succ k' => simpa using h4 k' (by omega)

/-- Vector::argmin returns an in-range index, its value is a minimum, and
    every earlier entry is strictly larger (first-occurrence tie-break). -/
theorem Vector.argmin_spec (v : Vector α) (hv : v.data ≠ []) :
    v.argmin < v.len ∧ (∀ k, k < v.len → v.get v.argmin ≤ v.get k) ∧
    (∀ k, k < v.argmin → v.get v.argmin < v.get k) := by
  obtain ⟨d⟩ := v
  cases d with
  | nil => exact absurd rfl hv
  | cons x xs =>
    show (Vector.argmin ⟨x :: xs⟩ < (x :: xs).length) ∧ _
    have hun : Vector.argmin ⟨x :: xs⟩ = (argminAux 1 (0, x) xs).1 := by
      simp [Vector.argmin, argminAux]
    obtain ⟨ha, hb, hc⟩ := argminAux_spec xs 1 (0, x)
    set r := argminAux 1 (0, x) xs with hr
    have hval : (x :: xs).getD r.1 0 = r.2 := by
      rcases hc with hc | ⟨k, hk, h1, h2, _h3, _h4⟩
      · rw [hc]; simp
      · rw [h1, Nat.add_comm 1 k]
        simpa using h2.symm
    have hle : ∀ k, k < (x :: xs).length → r.2 ≤ (x :: xs).getD k 0 := by
      intro k hk
      cases k with
      | zero => simpa using ha
      | succ k => simpa using hb k (by simpa using hk)
    refine ⟨?_, ?_, ?_⟩
    · rw [hun]
      rcases hc with hc | ⟨k, hk, h1, _⟩
      · rw [hc]; simp
      · rw [h1]; simp only [List.length_cons]; omega
    · intro k hk
      rw [Vector.get, Vector.get, hun, hval]
      exact hle k hk
    · intro k hk
      rw [hun] at hk
      rw [Vector.get, Vector.get, hun, hval]
      rcases hc with hc | ⟨k', _hk', h1, _h2, h3, h4⟩
      · rw [hc] at hk
        exact absurd hk (by simp)
      · rw [h1] at hk
        cases k with
        | zero => simpa using h3
        | succ k => simpa using h4 k (by omega)

/-- The foldl-min of the spec never exceeds its accumulator. -/
theorem foldl_min_le_init (xs : List α) : ∀ a : α, xs.foldl min a ≤ a := by
  induction xs with
  | nil => intro a; exact le_refl a
  | cons x xs ih =>
    intro a
    exact le_trans (ih (min a x)) (min_le_left a x)

/-- The foldl-min of the spec never exceeds any scanned element. -/
theorem foldl_min_le_mem (xs : List α) : ∀ (a x : α), x ∈ xs → xs.foldl min a ≤ x := by
  induction xs with
  | nil => intro a x hx; cases hx
  | cons y xs ih =>
    intro a x hx
    rcases List.mem_cons.mp hx with rfl | hx
    · exact le_trans (foldl_min_le_init xs (min a x)) (min_le_right a x)
    · exact ih (min a y) x hx

/-- The foldl-min of the spec is the accumulator or a scanned element. -/
theorem foldl_min_mem (xs : List α) : ∀ a : α, xs.foldl min a = a ∨ xs.foldl min a ∈ xs := by
  induction xs with
  | nil => intro a; exact Or.inl rfl
  | cons x xs ih =>
    intro a
    rcases ih (min a x) with h | h
    · rcases min_choice a x with hm | hm
      · exact Or.inl (by rw [List.foldl_cons, h, hm])
      · exact Or.inr (by rw [List.foldl_cons, h, hm]; exact List.mem_cons_self x xs)
    · exact Or.inr (List.mem_cons_of_mem x h)

/-- specMin of a nonempty list is an attained lower bound. -/
theorem specMin_spec (l : List α) (hl : l ≠ []) :
    specMin l ∈ l ∧ ∀ x ∈ l, specMin l ≤ x := by
  cases l with
  | nil => exact absurd rfl hl
  | cons x xs =>
    constructor
    · rcases foldl_min_mem xs x with h | h
      · rw [specMin, h]; exact List.mem_cons_self x xs
      · exact List.mem_cons_of_mem x h
    · intro y hy
      rcases List.mem_cons.mp hy with rfl | hy
      · exact foldl_min_le_init xs y
      · exact foldl_min_le_mem xs x y hy

/-- specFirstArgmin of a nonempty list: in range, attains specMin, and every
    earlier entry is strictly above specMin. -/
theorem specFirstArgmin_spec (l : List α) (hl : l ≠ []) :
    specFirstArgmin l < l.length ∧ l.getD (specFirstArgmin l) 0 = specMin l ∧
    ∀ k, k < specFirstArgmin l → specMin l < l.getD k 0 := by
  obtain ⟨hmem, hle⟩ := specMin_spec l hl
  have hex : ∃ x ∈ l, (fun x => decide (x = specMin l)) x = true :=
    ⟨specMin l, hmem, by simp⟩
  have hlt : specFirstArgmin l < l.length := List.findIdx_lt_length_of_exists hex
  refine ⟨hlt, ?_, ?_⟩
  · rw [List.getD_eq_getElem l 0 hlt]
    have := @List.findIdx_getElem _ (fun x => decide (x = specMin l)) l hlt
    simpa using this
  · intro k hk
    have hkl : k < l.length := lt_trans hk hlt
    rw [List.getD_eq_getElem l 0 hkl]
    have hne := List.not_of_lt_findIdx (p := fun x => decide (x = specMin l)) hk
    simp only [decide_eq_false_iff_not] at hne
    exact lt_of_le_of_ne (hle _ (List.getElem_mem hkl)) (fun h => hne h.symm)

/-- A list has at most one index that attains a minimum with all earlier
    entries strictly larger. -/
theorem first_min_unique (l : List α) (i j : Nat)
    (hi : i < l.length) (hj : j < l.length)
    (hmin_i : ∀ k, k < l.length → l.getD i 0 ≤ l.getD k 0)
    (hfst_i : ∀ k, k < i → l.getD i 0 < l.getD k 0)
    (hmin_j : ∀ k, k < l.length → l.getD j 0 ≤ l.getD k 0)
    (hfst_j : ∀ k, k < j → l.getD j 0 < l.getD k 0) : i = j := by
  rcases lt_trichotomy i j with h | h | h
  · exact absurd (hfst_j i h) (not_lt.mpr (hmin_i j hj))
  · exact h
  · exact absurd (hfst_i j h) (not_lt.mpr (hmin_j i hi))

/-- Vector::argmin agrees with the spec's first-occurrence argmin. -/
theorem vector_argmin_eq_spec (v : Vector α) (hv : v.data ≠ []) :
    v.argmin = specFirstArgmin v.data := by
  obtain ⟨h1, h2, h3⟩ := Vector.argmin_spec v hv
  obtain ⟨g1, g2, g3⟩ := specFirstArgmin_spec v.data hv
  refine first_min_unique v.data _ _ h1 g1 h2 h3 (fun k hk => ?_) (fun k hk => ?_)
  · rw [g2]
    exact (specMin_spec v.data hv).2 _ (List.getD_eq_getElem v.data 0 hk ▸
      List.getElem_mem hk)
  · rw [g2]
    exact g3 k hk

/-- The argmin loop of a cons vector after its first (never-replacing) pass. -/
theorem vector_argmin_cons (x : α) (xs : List α) :
    Vector.argmin ⟨x :: xs⟩ = (argminAux 1 (0, x) xs).1 := by
  simp [Vector.argmin, argminAux]

/-- The value stored at the argmin index of a cons vector. -/
theorem argmin_cons_val (x : α) (xs : List α) :
    (x :: xs).getD (argminAux 1 (0, x) xs).1 0 = (argminAux 1 (0, x) xs).2 := by
  obtain ⟨_, _, hc⟩ := argminAux_spec xs 1 (0, x)
  rcases hc with hc | ⟨k, hk, h1, h2, _, _⟩
  · rw [hc]; simp
  · rw [h1, Nat.add_comm 1 k]
    simpa using h2.symm

/-- The value at Vector::argmin is the spec's minimum of the data. -/
theorem vector_argmin_get_eq_specMin (v : Vector α) (hv : v.data ≠ []) :
    v.get v.argmin = specMin v.data := by
  obtain ⟨h1, h2, _⟩ := Vector.argmin_spec v hv
  obtain ⟨hmem, hle⟩ := specMin_spec v.data hv
  apply le_antisymm
  · obtain ⟨k, hk, hkeq⟩ := List.mem_iff_getElem.mp hmem
    have h := h2 k (by simpa [Vector.len] using hk)
    rw [Vector.get, Vector.get, List.getD_eq_getElem v.data 0 hk, hkeq] at h
    exact h
  · apply hle
    rw [Vector.get, List.getD_eq_getElem v.data 0 (by simpa [Vector.len] using h1)]
    exact List.getElem_mem _

/-- minColUpd preserves the slot count. -/
theorem minColUpd_length (acc : List (Option α)) : ∀ row : List α,
    (minColUpd acc row).length = acc.length := by
  induction acc with
  | nil => intro row; cases row <;> rfl
  | cons a acc ih =>
    intro row
    cases row with
    | nil => rfl
    | cons x xs => simpa [minColUpd] using ih xs

/-- argColUpd preserves the slot count. -/
theorem argColUpd_length (i : Nat) (acc : List (Option α × Nat)) : ∀ row : List α,
    (argColUpd i acc row).length = acc.length := by
  induction acc with
  | nil => intro row; cases row <;> rfl
  | cons a acc ih =>
    intro row
    cases row with
    | nil => rfl
    | cons x xs => simpa [argColUpd] using ih xs

/-- argColAux preserves the slot count. -/
theorem argColAux_length (rows : List (List α)) : ∀ (i : Nat) (acc : List (Option α × Nat)),
    (argColAux i acc rows).length = acc.length := by
  induction rows with
  | nil => intro i acc; rfl
  | cons row rest ih =>
    intro i acc
    rw [argColAux, ih, argColUpd_length]

/-- minColAux preserves the slot count. -/
theorem minColAux_length (rows : List (List α)) : ∀ acc : List (Option α),
    (minColAux acc rows).length = acc.length := by
  induction rows with
  | nil => intro acc; rfl
  | cons row rest ih =>
    intro acc
    rw [minColAux, ih, minColUpd_length]

/-- One argColUpd pass, read at slot j: within the row the slot is updated by
    the sentinel comparison, past the row it is untouched. -/
theorem argColUpd_getD (i : Nat) (acc : List (Option α × Nat)) :
    ∀ (row : List α) (j : Nat) (d : Option α × Nat), j < acc.length →
    (argColUpd i acc row).getD j d =
      if j < row.length then
        (if ltSentinel (row.getD j 0) ((acc.getD j d).1) then (some (row.getD j 0), i)
         else acc.getD j d)
      else acc.getD j d := by
  induction acc with
  | nil =>
    intro row j d hj
    exact absurd hj (by simp)
  | cons a acc ih =>
    intro row j d hj
    cases row with
    | nil => simp [argColUpd]
    | cons x xs =>
      cases j with
      | zero => simp [argColUpd]
      | succ j =>
        have hj2 : j < acc.length := by simpa using hj
        simp only [argColUpd, List.getD_cons_succ, List.length_cons,
          Nat.add_lt_add_iff_right]
        exact ih xs j d hj2

/-- The projection of the argmin fold onto values is the min fold (the two
    source loops share their comparison). -/
theorem minColUpd_eq_map (i : Nat) (acc : List (Option α × Nat)) :
    ∀ row : List α,
    minColUpd (acc.map Prod.fst) row = (argColUpd i acc row).map Prod.fst := by
  induction acc with
  | nil => intro row; cases row <;> rfl
  | cons a acc ih =>
    intro row
    cases row with
    | nil => rfl
    | cons x xs =>
      simp only [List.map_cons, minColUpd, argColUpd, ih xs]
      by_cases hx : ltSentinel x a.1 <;> simp [hx]

/-- The projection of the whole argmin fold onto values is the min fold. -/
theorem minColAux_eq_map (rows : List (List α)) :
    ∀ (i : Nat) (acc : List (Option α × Nat)),
    minColAux (acc.map Prod.fst) rows = (argColAux i acc rows).map Prod.fst := by
  induction rows with
  | nil => intro i acc; rfl
  | cons row rest ih =>
    intro i acc
    rw [minColAux, argColAux, minColUpd_eq_map i acc row, ih]

/-- Reading slot j of the argmin fold is the 1-dimensional slot evolution over
    column j, for a table whose rows all have length C. -/
theorem argColAux_getD (rows : List (List α)) (C : Nat)
    (hrows : ∀ r ∈ rows, r.length = C) :
    ∀ (i : Nat) (acc : List (Option α × Nat)) (j : Nat) (d : Option α × Nat),
      acc.length = C → j < C →
      (argColAux i acc rows).getD j d = optAux i (acc.getD j d) (specColumn rows j) := by
  induction rows with
  | nil =>
    intro i acc j d _ _
    rfl
  | cons row rest ih =>
    intro i acc j d hlen hj
    have hrow : row.length = C := hrows row (List.mem_cons_self row rest)
    have hrest : ∀ r ∈ rest, r.length = C := fun r hr => hrows r (List.mem_cons_of_mem row hr)
    rw [argColAux, ih hrest (i + 1) _ j d (by rw [argColUpd_length]; exact hlen) hj]
    rw [argColUpd_getD i acc row j d (by omega)]
    rw [if_pos (by omega)]
    have hcol : specColumn (row :: rest) j = row.getD j 0 :: specColumn rest j := by
      simp [specColumn]
    rw [hcol]
    by_cases hx : ltSentinel (row.getD j 0) ((acc.getD j d).1) <;>
      simp [optAux, hx]

/-- The slot evolution started at the sentinel takes the first element. -/
theorem optAux_none (i mi : Nat) (x : α) (xs : List α) :
    optAux i ((none : Option α), mi) (x :: xs) = optAux (i + 1) (some x, i) xs := by
  simp [optAux, ltSentinel]

/-- The slot evolution past the sentinel is the Vector::argmin loop. -/
theorem optAux_some (l : List α) : ∀ (i mi : Nat) (mv : α),
    optAux i (some mv, mi) l =
      (some (argminAux i (mi, mv) l).2, (argminAux i (mi, mv) l).1) := by
  induction l with
  | nil => intro i mi mv; rfl
  | cons x xs ih =>
    intro i mi mv
    show optAux (i + 1) (if ltSentinel x (some mv) then (some x, i) else (some mv, mi)) xs = _
    by_cases hx : x < mv
    · rw [if_pos (show ltSentinel x (some mv) = true by simp [ltSentinel, hx])]
      rw [show argminAux i (mi, mv) (x :: xs) = argminAux (i + 1) (i, x) xs from by
        simp [argminAux, hx]]
      exact ih (i + 1) i x
    · rw [if_neg (show ¬ ltSentinel x (some mv) = true by simp [ltSentinel, hx])]
      rw [show argminAux i (mi, mv) (x :: xs) = argminAux (i + 1) (mi, mv) xs from by
        simp [argminAux, hx]]
      exact ih (i + 1) mi mv

/-- Slot j of the argmin fold over a well-formed nonempty matrix is the pair
    (minimal value of column j, first index attaining it). -/
theorem colSlot_spec (m : Matrix α) (hWF : m.WF) (hr : 1 ≤ m.rows)
    (j : Nat) (hj : j < m.cols) :
    (argColAux 0 (List.replicate m.cols ((none : Option α), 0)) m.data).getD j (none, 0) =
      (some ((specColumn m.data j).getD (Vector.argmin ⟨specColumn m.data j⟩) 0),
       Vector.argmin ⟨specColumn m.data j⟩) := by
  have hlen : (specColumn m.data j).length = m.rows := by
    rw [specColumn, List.length_map, hWF.1]
  have hcol : specColumn m.data j ≠ [] := by
    intro h
    rw [h] at hlen
    simp at hlen
    omega
  obtain ⟨c, cs, hcons⟩ : ∃ c cs, specColumn m.data j = c :: cs := by
    cases hcc : specColumn m.data j with
    | nil => exact absurd hcc hcol
    | cons c cs => exact ⟨c, cs, rfl⟩
  rw [argColAux_getD m.data m.cols hWF.2 0 _ j (none, 0) (by simp) hj]
  have hrep : (List.replicate m.cols ((none : Option α), 0)).getD j (none, 0) =
      ((none : Option α), 0) := by
    rw [List.getD_eq_getElem _ _ (by simpa using hj)]
    exact List.getElem_replicate _ _
  rw [hrep, hcons, optAux_none, optAux_some]
  rw [show Vector.argmin ⟨c :: cs⟩ = (argminAux 1 (0, c) cs).1 from vector_argmin_cons c cs]
  rw [show (c :: cs).getD (argminAux 1 (0, c) cs).1 0 = (argminAux 1 (0, c) cs).2 from
    argmin_cons_val c cs]

/-- Matrix::argmin_by_column has one entry per column. -/
theorem argmin_by_column_length (m : Matrix α) :
    m.argmin_by_column.length = m.cols := by
  rw [Matrix.argmin_by_column, List.length_map, argColAux_length, List.length_replicate]

/-- Matrix::min_by_column has one entry per column. -/
theorem min_by_column_len (m : Matrix α) :
    m.min_by_column.len = m.cols := by
  rw [Matrix.min_by_column, Vector.len]
  show (List.map _ (minColAux _ _)).length = m.cols
  rw [List.length_map, minColAux_length, List.length_replicate]

/-- Entry j of Matrix::argmin_by_column is Vector::argmin of column j. -/
theorem argmin_by_column_getD (m : Matrix α) (hWF : m.WF) (hr : 1 ≤ m.rows)
    (j : Nat) (hj : j < m.cols) :
    m.argmin_by_column.getD j 0 = Vector.argmin ⟨specColumn m.data j⟩ := by
  rw [Matrix.argmin_by_column]
  have hl : j < (argColAux 0 (List.replicate m.cols ((none : Option α), 0)) m.data).length := by
    rw [argColAux_length, List.length_replicate]
    exact hj
  rw [List.getD_eq_getElem _ _ (by simpa using hl), List.getElem_map]
  rw [← List.getD_eq_getElem _ ((none : Option α), 0) hl]
  rw [colSlot_spec m hWF hr j hj]

/-- Entry j of Matrix::min_by_column is the value at that argmin, the minimum
    of column j. -/
theorem min_by_column_get (m : Matrix α) (hWF : m.WF) (hr : 1 ≤ m.rows)
    (j : Nat) (hj : j < m.cols) :
    m.min_by_column.get j = specMin (specColumn m.data j) := by
  have hlen : (specColumn m.data j).length = m.rows := by
    rw [specColumn, List.length_map, hWF.1]
  have hcol : specColumn m.data j ≠ [] := by
    intro h
    rw [h] at hlen
    simp at hlen
    omega
  rw [Matrix.min_by_column, Vector.get]
  show (List.map _ (minColAux (List.replicate m.cols none) m.data)).getD j 0 = _
  have hrepmap : (List.replicate m.cols (none : Option α)) =
      (List.replicate m.cols ((none : Option α), 0)).map Prod.fst := by
    rw [List.map_replicate]
  rw [hrepmap, minColAux_eq_map m.data 0]
  have hl : j < (argColAux 0 (List.replicate m.cols ((none : Option α), 0)) m.data).length := by
    rw [argColAux_length, List.length_replicate]
    exact hj
  rw [List.getD_eq_getElem _ _ (by simpa using hl), List.getElem_map, List.getElem_map]
  rw [← List.getD_eq_getElem _ ((none : Option α), 0) hl]
  rw [colSlot_spec m hWF hr j hj]
  show (specColumn m.data j).getD (Vector.argmin ⟨specColumn m.data j⟩) 0 = _
  have := vector_argmin_get_eq_specMin ⟨specColumn m.data j⟩ hcol
  rw [Vector.get] at this
  exact this

/-- Column entries spelled out on the underlying rows. -/
theorem specColumn_getD (rows : List (List α)) (j i : Nat) (hi : i < rows.length) :
    (specColumn rows j).getD i 0 = (rows.getD i []).getD j 0 := by
  rw [specColumn, List.getD_eq_getElem _ _ (by simpa using hi), List.getElem_map,
    List.getD_eq_getElem _ _ hi]

/-- addColsAux preserves the number of rows. -/
theorem addColsAux_length (v : Vector α) (n : Nat) : ∀ (i : Nat) (data : List (List α)),
    (addColsAux v n i data).length = data.length := by
  intro i data
  induction data generalizing i with
  | nil => rfl
  | cons row rest ih => simpa [addColsAux] using ih (i + 1)

/-- Row k of addColsAux started at row index i: within the bound i + k < n the
    row is shifted by v[i + k], otherwise it is returned unchanged. -/
theorem addColsAux_getD (v : Vector α) (n : Nat) :
    ∀ (data : List (List α)) (i k : Nat), k < data.length →
      (addColsAux v n i data).getD k [] =
        if i + k < n then (data.getD k []).map (fun x => x + v.get (i + k))
        else data.getD k [] := by
  intro data
  induction data with
  | nil =>
    intro i k hk
    exact absurd hk (by simp)
  | cons row rest ih =>
    intro i k hk
    cases k with
    | zero =>
      simp only [addColsAux, List.getD_cons_zero, Nat.add_zero]
    | succ k =>
      have hk2 : k < rest.length := by simpa using hk
      simp only [addColsAux, List.getD_cons_succ]
      rw [ih (i + 1) k hk2]
      have harith : i + 1 + k = i + (k + 1) := by omega
      rw [harith]

/-- C7: the row-broadcast add (source name add_to_columns, spec name
    add_to_rows) keeps the shape and the rectangularity invariant; for every
    row index i below min(rows, len v) each entry of row i becomes the
    original entry plus v[i]; every row with index at least len v is returned
    unchanged. -/
theorem add_to_columns_spec (m : Matrix α) (v : Vector α) (hm : m.WF) :
    (m.add_to_columns v).rows = m.rows ∧ (m.add_to_columns v).cols = m.cols ∧
    (m.add_to_columns v).WF ∧
    (∀ i, i < min m.rows v.len → ∀ j, j < m.cols →
      ((m.add_to_columns v).data.getD i []).getD j 0 =
        (m.data.getD i []).getD j 0 + v.get i) ∧
    (∀ i, v.len ≤ i → (m.add_to_columns v).data.getD i [] = m.data.getD i []) := by
  obtain ⟨hml, hmr⟩ := hm
  refine ⟨rfl, rfl, ⟨?_, ?_⟩, ?_, ?_⟩
  · show (addColsAux v (min m.rows v.len) 0 m.data).length = m.rows
    rw [addColsAux_length, hml]
  · intro r hr
    show r.length = m.cols
    obtain ⟨k, hk, hkeq⟩ := List.mem_iff_getElem.mp
      (show r ∈ addColsAux v (min m.rows v.len) 0 m.data from hr)
    rw [addColsAux_length] at hk
    rw [← List.getD_eq_getElem _ [] (by
      show k < (addColsAux v (min m.rows v.len) 0 m.data).length
      rw [addColsAux_length]; exact hk)] at hkeq
    rw [addColsAux_getD v _ m.data 0 k hk] at hkeq
    have hrowk : (m.data.getD k []).length = m.cols := by
      rw [List.getD_eq_getElem _ _ hk]
      exact hmr _ (List.getElem_mem hk)
    by_cases hc : 0 + k < min m.rows v.len
    · rw [if_pos hc] at hkeq
      rw [← hkeq, List.length_map, hrowk]
    · rw [if_neg hc] at hkeq
      rw [← hkeq, hrowk]
  · intro i hi j hj
    have hid : i < m.data.length := by rw [hml]; omega
    show ((addColsAux v (min m.rows v.len) 0 m.data).getD i []).getD j 0 = _
    rw [addColsAux_getD v _ m.data 0 i hid, if_pos (by omega)]
    have hrow : (m.data.getD i []).length = m.cols := by
      rw [List.getD_eq_getElem _ _ hid]
      exact hmr _ (List.getElem_mem hid)
    have hj2 : j < (m.data.getD i []).length := by rw [hrow]; exact hj
    rw [List.getD_eq_getElem _ 0 (by simpa using hj2), List.getElem_map,
      List.getD_eq_getElem _ 0 hj2]
    simp
  · intro i hi
    show (addColsAux v (min m.rows v.len) 0 m.data).getD i [] = _
    by_cases hid : i < m.data.length
    · rw [addColsAux_getD v _ m.data 0 i hid, if_neg (by omega)]
    · rw [List.getD_eq_default _ _ (by
        rw [addColsAux_length]; omega), List.getD_eq_default _ _ (by omega)]

/-- C7 witness: the repo's add-to-columns unit test input. -/
theorem add_to_columns_spec_witness :
    (Matrix.mk 2 2 [[(1 : ℤ), 2], [3, 4]]).WF ∧
    (((Matrix.mk 2 2 [[(1 : ℤ), 2], [3, 4]]).add_to_columns (Vector.mk [3, 4])).rows = 2 ∧
     ((Matrix.mk 2 2 [[(1 : ℤ), 2], [3, 4]]).add_to_columns (Vector.mk [3, 4])).cols = 2 ∧
     ((Matrix.mk 2 2 [[(1 : ℤ), 2], [3, 4]]).add_to_columns (Vector.mk [3, 4])).WF ∧
     (∀ i, i < min (Matrix.mk 2 2 [[(1 : ℤ), 2], [3, 4]]).rows (Vector.mk [(3 : ℤ), 4]).len →
       ∀ j, j < 2 →
       (((Matrix.mk 2 2 [[(1 : ℤ), 2], [3, 4]]).add_to_columns
           (Vector.mk [3, 4])).data.getD i []).getD j 0 =
         ((Matrix.mk 2 2 [[(1 : ℤ), 2], [3, 4]]).data.getD i []).getD j 0 +
           (Vector.mk [(3 : ℤ), 4]).get i) ∧
     (∀ i, (Vector.mk [(3 : ℤ), 4]).len ≤ i →
       ((Matrix.mk 2 2 [[(1 : ℤ), 2], [3, 4]]).add_to_columns
           (Vector.mk [3, 4])).data.getD i [] =
         (Matrix.mk 2 2 [[(1 : ℤ), 2], [3, 4]]).data.getD i [])) := by
  have hwf : (Matrix.mk 2 2 [[(1 : ℤ), 2], [3, 4]]).WF := by
    constructor
    · rfl
    · intro r hr
      fin_cases hr <;> rfl
  exact ⟨hwf, add_to_columns_spec (Matrix.mk 2 2 [[(1 : ℤ), 2], [3, 4]])
    (Vector.mk [3, 4]) hwf⟩

/-- C9: Vector::argmin returns, for a nonempty vector, the smallest index
    holding the minimal value (first-occurrence tie-break: earlier entries are
    strictly larger), and Matrix::argmin_by_column returns, for every column j
    of a well-formed nonempty matrix, the lowest row index attaining that
    column's minimum. -/
theorem argmin_first_occurrence (v : Vector α) (hv : v.data ≠ [])
    (m : Matrix α) (hm : m.WF) (hr : 1 ≤ m.rows) (j : Nat) (hj : j < m.cols) :
    (v.argmin < v.len ∧
      (∀ k, k < v.len → v.get v.argmin ≤ v.get k) ∧
      (∀ k, k < v.argmin → v.get v.argmin < v.get k)) ∧
    (m.argmin_by_column.getD j 0 < m.rows ∧
      (∀ i, i < m.rows →
        (m.data.getD (m.argmin_by_column.getD j 0) []).getD j 0 ≤
          (m.data.getD i []).getD j 0) ∧
      (∀ i, i < m.argmin_by_column.getD j 0 →
        (m.data.getD (m.argmin_by_column.getD j 0) []).getD j 0 <
          (m.data.getD i []).getD j 0)) := by
  refine ⟨Vector.argmin_spec v hv, ?_⟩
  have hlen : (specColumn m.data j).length = m.rows := by
    rw [specColumn, List.length_map, hm.1]
  have hcol : (Vector.mk (specColumn m.data j)).data ≠ [] := by
    show specColumn m.data j ≠ []
    intro h
    rw [h] at hlen
    simp at hlen
    omega
  obtain ⟨g1, g2, g3⟩ := Vector.argmin_spec ⟨specColumn m.data j⟩ hcol
  simp only [Vector.len, Vector.get] at g1 g2 g3
  rw [argmin_by_column_getD m hm hr j hj]
  have ha : Vector.argmin ⟨specColumn m.data j⟩ < m.rows := by
    rw [← hlen]
    simpa [Vector.len] using g1
  refine ⟨ha, ?_, ?_⟩
  · intro i hi
    have h := g2 i (by rw [hlen]; exact hi)
    rw [specColumn_getD m.data j _ (by rw [hm.1]; exact ha),
      specColumn_getD m.data j i (by rw [hm.1]; exact hi)] at h
    exact h
  · intro i hi
    have hi2 : i < m.rows := lt_trans hi ha
    have h := g3 i (by simpa [Vector.len] using hi)
    rw [specColumn_getD m.data j _ (by rw [hm.1]; exact ha),
      specColumn_getD m.data j i (by rw [hm.1]; exact hi2)] at h
    exact h

/-- C9 witness: the repo's argmin vector [1, 4, 0.34, 12] scaled to integers
    with a duplicated minimum appended, and the repo's argmin_by_column test
    matrix. -/
theorem argmin_first_occurrence_witness :
    ((Vector.mk [(100 : ℤ), 400, 34, 1200, 34]).data ≠ [] ∧
      (Matrix.mk 2 2 [[(1 : ℤ), 4], [3, 2]]).WF ∧
      1 ≤ (Matrix.mk 2 2 [[(1 : ℤ), 4], [3, 2]]).rows ∧
      1 < (Matrix.mk 2 2 [[(1 : ℤ), 4], [3, 2]]).cols) ∧
    (((Vector.mk [(100 : ℤ), 400, 34, 1200, 34]).argmin <
        (Vector.mk [(100 : ℤ), 400, 34, 1200, 34]).len ∧
      (∀ k, k < (Vector.mk [(100 : ℤ), 400, 34, 1200, 34]).len →
        (Vector.mk [(100 : ℤ), 400, 34, 1200, 34]).get
            (Vector.mk [(100 : ℤ), 400, 34, 1200, 34]).argmin ≤
          (Vector.mk [(100 : ℤ), 400, 34, 1200, 34]).get k) ∧
      (∀ k, k < (Vector.mk [(100 : ℤ), 400, 34, 1200, 34]).argmin →
        (Vector.mk [(100 : ℤ), 400, 34, 1200, 34]).get
            (Vector.mk [(100 : ℤ), 400, 34, 1200, 34]).argmin <
          (Vector.mk [(100 : ℤ), 400, 34, 1200, 34]).get k)) ∧
    ((Matrix.mk 2 2 [[(1 : ℤ), 4], [3, 2]]).argmin_by_column.getD 1 0 <
        (Matrix.mk 2 2 [[(1 : ℤ), 4], [3, 2]]).rows ∧
      (∀ i, i < (Matrix.mk 2 2 [[(1 : ℤ), 4], [3, 2]]).rows →
        ((Matrix.mk 2 2 [[(1 : ℤ), 4], [3, 2]]).data.getD
            ((Matrix.mk 2 2 [[(1 : ℤ), 4], [3, 2]]).argmin_by_column.getD 1 0) []).getD 1 0 ≤
          ((Matrix.mk 2 2 [[(1 : ℤ), 4], [3, 2]]).data.getD i []).getD 1 0) ∧
      (∀ i, i < (Matrix.mk 2 2 [[(1 : ℤ), 4], [3, 2]]).argmin_by_column.getD 1 0 →
        ((Matrix.mk 2 2 [[(1 : ℤ), 4], [3, 2]]).data.getD
            ((Matrix.mk 2 2 [[(1 : ℤ), 4], [3, 2]]).argmin_by_column.getD 1 0) []).getD 1 0 <
          ((Matrix.mk 2 2 [[(1 : ℤ), 4], [3, 2]]).data.getD i []).getD 1 0))) := by
  have h1 : (Vector.mk [(100 : ℤ), 400, 34, 1200, 34]).data ≠ [] := by simp
  have h2 : (Matrix.mk 2 2 [[(1 : ℤ), 4], [3, 2]]).WF := by
    constructor
    · rfl
    · intro r hr
      fin_cases hr <;> rfl
  have h3 : 1 ≤ (Matrix.mk 2 2 [[(1 : ℤ), 4], [3, 2]]).rows := by norm_num
  have h4 : 1 < (Matrix.mk 2 2 [[(1 : ℤ), 4], [3, 2]]).cols := by norm_num
  exact ⟨⟨h1, h2, h3, h4⟩,
    argmin_first_occurrence (Vector.mk [(100 : ℤ), 400, 34, 1200, 34]) h1
      (Matrix.mk 2 2 [[(1 : ℤ), 4], [3, 2]]) h2 h3 1 h4⟩

/-- Positivity of a Vector, spelled out. -/
theorem vector_is_positive_iff (v : Vector α) :
    v.is_positive = true ↔ ∀ x ∈ v.data, 0 ≤ x := by
  simp [Vector.is_positive, not_lt]

/-- Positivity of a Matrix, spelled out. -/
theorem matrix_is_positive_iff (m : Matrix α) :
    m.is_positive = true ↔ ∀ r ∈ m.data, ∀ x ∈ r, 0 ≤ x := by
  simp [Matrix.is_positive, not_lt]

/-- Every entry of argmin_by_column of a well-formed nonempty matrix is a row
    index. -/
theorem argmin_by_column_mem_lt (m : Matrix α) (hWF : m.WF) (hr : 1 ≤ m.rows) :
    ∀ s ∈ m.argmin_by_column, s < m.rows := by
  intro s hs
  obtain ⟨j, hj, hjeq⟩ := List.mem_iff_getElem.mp hs
  rw [argmin_by_column_length] at hj
  have hgd : m.argmin_by_column.getD j 0 = s := by
    rw [List.getD_eq_getElem _ _ (by rw [argmin_by_column_length]; exact hj)]
    exact hjeq
  rw [argmin_by_column_getD m hWF hr j hj] at hgd
  have hlen : (specColumn m.data j).length = m.rows := by
    rw [specColumn, List.length_map, hWF.1]
  have hcol : (Vector.mk (specColumn m.data j)).data ≠ [] := by
    show specColumn m.data j ≠ []
    intro h
    rw [h] at hlen
    simp at hlen
    omega
  have := (Vector.argmin_spec ⟨specColumn m.data j⟩ hcol).1
  rw [Vector.len] at this
  rw [← hgd, ← hlen]
  simpa using this

/-- The -log transform keeps the rectangularity invariant. -/
theorem minus_log_WF (m : Matrix α) (mlog : α → α) (h : m.WF) :
    (m.minus_log mlog).WF := by
  constructor
  · show (m.data.map _).length = m.rows
    rw [List.length_map, h.1]
  · intro r hr
    obtain ⟨row, hrow, hreq⟩ := List.mem_map.mp hr
    rw [← hreq]
    show (row.map mlog).length = m.cols
    rw [List.length_map]
    exact h.2 row hrow

/-- addColsAux with every index below the bound is a pointwise zip with the
    suffix of the vector from the start index on. -/
theorem addColsAux_eq_zipWith (v : Vector α) (n : Nat) :
    ∀ (data : List (List α)) (i : Nat), i + data.length ≤ n → n ≤ v.len →
      addColsAux v n i data =
        List.zipWith (fun row c => row.map (fun x => x + c)) data (v.data.drop i) := by
  intro data
  induction data with
  | nil => intro i _ _; simp [addColsAux]
  | cons row rest ih =>
    intro i hi hn
    have hiv : i < v.data.length := by
      have : i < n := by simp at hi; omega
      have hvl : v.len = v.data.length := rfl
      omega
    rw [List.drop_eq_getElem_cons hiv]
    rw [addColsAux, if_pos (by simp at hi; omega)]
    rw [List.zipWith_cons_cons]
    rw [ih (i + 1) (by simp at hi; omega) hn]
    have hget : v.get i = v.data[i] := by
      rw [Vector.get, List.getD_eq_getElem _ _ hiv]
    rw [hget]

/-- add_to_columns of a well-formed matrix by a vector of matching length is
    exactly the spec's scored table: row i shifted by combined[i]. -/
theorem add_to_columns_data_eq (m : Matrix α) (v : Vector α) (hWF : m.WF)
    (hv : v.len = m.rows) :
    (m.add_to_columns v).data =
      List.zipWith (fun row c => row.map (fun x => x + c)) m.data v.data := by
  show addColsAux v (min m.rows v.len) 0 m.data = _
  have h1 : min m.rows v.len = m.rows := by omega
  rw [h1, addColsAux_eq_zipWith v m.rows m.data 0 (by rw [hWF.1]; omega) (by omega)]
  rfl

/-- One decoder step: on a well-formed square transition matrix and a message
    of matching length, next_msg_and_traceback computes exactly the spec's
    column-wise minimum and column-wise first-occurrence argmin of the scored
    table. -/
theorem next_msg_and_traceback_spec (hmm : HiddenMarkov α)
    (htWF : hmm.state_transitions.WF)
    (htr : hmm.state_transitions.rows = hmm.state_count)
    (htc : hmm.state_transitions.cols = hmm.state_count)
    (hS : 1 ≤ hmm.state_count)
    (phi : Vector α) (hphi : phi.len = hmm.state_count) :
    (hmm.next_msg_and_traceback phi).1.data =
      (List.range hmm.state_count).map (fun j =>
        specMin (specColumn (List.zipWith (fun row c => row.map (fun x => x + c))
          hmm.state_transitions.data phi.data) j)) ∧
    (hmm.next_msg_and_traceback phi).2 =
      (List.range hmm.state_count).map (fun j =>
        specFirstArgmin (specColumn (List.zipWith (fun row c => row.map (fun x => x + c))
          hmm.state_transitions.data phi.data) j)) := by
  have hdata : (hmm.state_transitions.add_to_columns phi).data =
      List.zipWith (fun row c => row.map (fun x => x + c))
        hmm.state_transitions.data phi.data :=
    add_to_columns_data_eq hmm.state_transitions phi htWF (by omega)
  set mat := hmm.state_transitions.add_to_columns phi with hmat
  have hmr : mat.rows = hmm.state_count := htr
  have hmc : mat.cols = hmm.state_count := htc
  have hmWF : mat.WF := by
    constructor
    · rw [hdata, List.length_zipWith, htWF.1]
      have hvl : phi.data.length = hmm.state_count := hphi
      rw [hmr]
      omega
    · intro r hr
      rw [hdata] at hr
      obtain ⟨k, hk, hkeq⟩ := List.mem_iff_getElem.mp hr
      rw [List.length_zipWith] at hk
      rw [List.getElem_zipWith] at hkeq
      rw [← hkeq, List.length_map, hmc, ← htc]
      exact htWF.2 _ (List.getElem_mem (by omega))
  have hnm1 : (hmm.next_msg_and_traceback phi).1 = mat.min_by_column := rfl
  have hnm2 : (hmm.next_msg_and_traceback phi).2 = mat.argmin_by_column := rfl
  constructor
  · rw [hnm1]
    apply List.ext_getElem
    · show mat.min_by_column.data.length = _
      have := min_by_column_len mat
      rw [Vector.len] at this
      rw [this, hmc, List.length_map, List.length_range]
    · intro j h1 h2
      have hj : j < mat.cols := by
        have := min_by_column_len mat
        rw [Vector.len] at this
        omega
      have hget := min_by_column_get mat hmWF (by omega) j hj
      rw [Vector.get] at hget
      rw [← List.getD_eq_getElem _ 0 h1, hget, List.getElem_map, List.getElem_range, hdata]
  · rw [hnm2]
    apply List.ext_getElem
    · rw [argmin_by_column_length, hmc, List.length_map, List.length_range]
    · intro j h1 h2
      have hj : j < mat.cols := by rw [← argmin_by_column_length mat]; exact h1
      have hget := argmin_by_column_getD mat hmWF (by omega) j hj
      have hlen : (specColumn mat.data j).length = mat.rows := by
        rw [specColumn, List.length_map, hmWF.1]
      have hcol : (Vector.mk (specColumn mat.data j)).data ≠ [] := by
        show specColumn mat.data j ≠ []
        intro h
        rw [h] at hlen
        simp at hlen
        omega
      rw [← List.getD_eq_getElem _ 0 h1, hget, List.getElem_map, List.getElem_range]
      rw [vector_argmin_eq_spec _ hcol, hdata]

/-- On a label below the column count, state_from_observation is exactly the
    emission column (the unwrap cannot panic). -/
theorem state_from_observation_eq (hmm : HiddenMarkov α) (l : Nat)
    (hl : l < hmm.observation_model.cols) :
    hmm.state_from_observation l = ⟨specColumn hmm.observation_model.data l⟩ := by
  rw [HiddenMarkov.state_from_observation, Matrix.column, if_neg (by omega)]
  rfl

/-- The forward loop computes exactly the spec's forward recurrence (messages
    and traceback lists), for a well-formed model and in-range labels. -/
theorem viterbi_forward_spec (hmm : HiddenMarkov α)
    (htWF : hmm.state_transitions.WF)
    (htr : hmm.state_transitions.rows = hmm.state_count)
    (htc : hmm.state_transitions.cols = hmm.state_count)
    (heWF : hmm.observation_model.WF)
    (her : hmm.observation_model.rows = hmm.state_count)
    (hS : 1 ≤ hmm.state_count) :
    ∀ (obs : List Nat) (cost : Vector α), cost.len = hmm.state_count →
      (∀ l ∈ obs, l < hmm.observation_model.cols) →
      (HiddenMarkov.viterbi_forward hmm obs cost).1.data =
        (specForward hmm.state_count hmm.state_transitions.data
          hmm.observation_model.data obs cost.data).1 ∧
      (HiddenMarkov.viterbi_forward hmm obs cost).2 =
        (specForward hmm.state_count hmm.state_transitions.data
          hmm.observation_model.data obs cost.data).2 := by
  intro obs
  induction obs with
  | nil =>
    intro cost _ _
    exact ⟨rfl, rfl⟩
  | cons l rest ih =>
    intro cost hcost hlab
    have hl : l < hmm.observation_model.cols := hlab l (List.mem_cons_self l rest)
    have hsfo := state_from_observation_eq hmm l hl
    have hphi : (cost.add_vector (hmm.state_from_observation l)).data =
        List.zipWith (fun c e => c + e) cost.data
          (specColumn hmm.observation_model.data l) := by
      rw [Vector.add_vector, hsfo]
    have hphilen : (cost.add_vector (hmm.state_from_observation l)).len =
        hmm.state_count := by
      rw [Vector.len, hphi, List.length_zipWith]
      have h1 : cost.data.length = hmm.state_count := hcost
      have h2 : (specColumn hmm.observation_model.data l).length = hmm.state_count := by
        rw [specColumn, List.length_map, heWF.1, her]
      omega
    set phi := cost.add_vector (hmm.state_from_observation l) with hphidef
    obtain ⟨hm1, hm2⟩ := next_msg_and_traceback_spec hmm htWF htr htc hS phi hphilen
    have hmsglen : (hmm.next_msg_and_traceback phi).1.len = hmm.state_count := by
      rw [Vector.len, hm1, List.length_map, List.length_range]
    obtain ⟨ih1, ih2⟩ := ih (hmm.next_msg_and_traceback phi).1 hmsglen
      (fun x hx => hlab x (List.mem_cons_of_mem l hx))
    have hstep : specStep hmm.state_count hmm.state_transitions.data
        hmm.observation_model.data cost.data l =
        ((hmm.next_msg_and_traceback phi).1.data, (hmm.next_msg_and_traceback phi).2) := by
      simp only [specStep]
      rw [hm1, hm2, ← hphi]
    constructor
    · show (HiddenMarkov.viterbi_forward hmm rest (hmm.next_msg_and_traceback phi).1).1.data = _
      simp only [specForward]
      rw [hstep]
      exact ih1
    · show (hmm.next_msg_and_traceback phi).2 ::
          (HiddenMarkov.viterbi_forward hmm rest (hmm.next_msg_and_traceback phi).1).2 = _
      simp only [specForward]
      rw [hstep]
      rw [ih2]

/-- Shape bounds of the forward loop: the final message has one entry per
    state, there is one traceback row per observation, and every traceback row
    has one in-range predecessor index per state. -/
theorem viterbi_forward_bounds (hmm : HiddenMarkov α)
    (htWF : hmm.state_transitions.WF)
    (htr : hmm.state_transitions.rows = hmm.state_count)
    (htc : hmm.state_transitions.cols = hmm.state_count)
    (hS : 1 ≤ hmm.state_count) :
    ∀ (obs : List Nat) (cost : Vector α), cost.len = hmm.state_count →
      (HiddenMarkov.viterbi_forward hmm obs cost).1.len = hmm.state_count ∧
      (HiddenMarkov.viterbi_forward hmm obs cost).2.length = obs.length ∧
      ∀ t ∈ (HiddenMarkov.viterbi_forward hmm obs cost).2,
        t.length = hmm.state_count ∧ ∀ e ∈ t, e < hmm.state_count := by
  intro obs
  induction obs with
  | nil =>
    intro cost hcost
    exact ⟨hcost, rfl, fun t ht => absurd ht (by simp [HiddenMarkov.viterbi_forward])⟩
  | cons l rest ih =>
    intro cost hcost
    set phi := cost.add_vector (hmm.state_from_observation l) with hphidef
    set mat := hmm.state_transitions.add_to_columns phi with hmat
    have hmatrows : mat.rows = hmm.state_count := htr
    have hmatcols : mat.cols = hmm.state_count := htc
    have hmatlen : mat.data.length = mat.rows := by
      show (addColsAux phi (min hmm.state_transitions.rows phi.len) 0
        hmm.state_transitions.data).length = _
      rw [addColsAux_length, htWF.1]
      rfl
    have hmatWF : mat.WF := by
      refine ⟨hmatlen, ?_⟩
      intro r hr
      obtain ⟨k, hk, hkeq⟩ := List.mem_iff_getElem.mp
        (show r ∈ addColsAux phi (min hmm.state_transitions.rows phi.len) 0
          hmm.state_transitions.data from hr)
      rw [addColsAux_length] at hk
      rw [← List.getD_eq_getElem _ [] (by
        show k < (addColsAux phi (min hmm.state_transitions.rows phi.len) 0
          hmm.state_transitions.data).length
        rw [addColsAux_length]; exact hk)] at hkeq
      rw [addColsAux_getD phi _ hmm.state_transitions.data 0 k hk] at hkeq
      have hrowk : (hmm.state_transitions.data.getD k []).length =
          hmm.state_transitions.cols := by
        rw [List.getD_eq_getElem _ _ hk]
        exact htWF.2 _ (List.getElem_mem hk)
      show r.length = mat.cols
      by_cases hc : 0 + k < min hmm.state_transitions.rows phi.len
      · rw [if_pos hc] at hkeq
        rw [← hkeq, List.length_map, hrowk]
        rw [hmatcols, ← htc]
      · rw [if_neg hc] at hkeq
        rw [← hkeq, hrowk]
        rw [hmatcols, ← htc]
    have hnm1 : (hmm.next_msg_and_traceback phi).1 = mat.min_by_column := rfl
    have hnm2 : (hmm.next_msg_and_traceback phi).2 = mat.argmin_by_column := rfl
    have hmsglen : (hmm.next_msg_and_traceback phi).1.len = hmm.state_count := by
      rw [hnm1, min_by_column_len, hmatcols]
    obtain ⟨ih1, ih2, ih3⟩ := ih (hmm.next_msg_and_traceback phi).1 hmsglen
    refine ⟨ih1, ?_, ?_⟩
    · show ((hmm.next_msg_and_traceback phi).2 :: _).length = _
      rw [List.length_cons, ih2]
      simp
    · intro t ht
      rcases List.mem_cons.mp ht with rfl | ht2
      · constructor
        · rw [hnm2, argmin_by_column_length, hmatcols]
        · intro e he
          rw [hnm2] at he
          have := argmin_by_column_mem_lt mat hmatWF (by omega) e he
          omega
      · exact ih3 t ht2

/-- backtrack produces one state per traceback row plus the accumulator. -/
theorem backtrack_length : ∀ (tbs : List (List Nat)) (last : Nat) (acc : List Nat),
    (backtrack tbs last acc).length = tbs.length + acc.length := by
  intro tbs
  induction tbs with
  | nil => intro last acc; simp [backtrack]
  | cons t rest ih =>
    intro last acc
    rw [backtrack, ih]
    simp
    omega

/-- Every state backtrack produces is below S when every traceback entry is
    (S ≥ 1 covers the out-of-range default 0). -/
theorem backtrack_bound (S : Nat) (hS : 1 ≤ S) :
    ∀ (tbs : List (List Nat)) (last : Nat) (acc : List Nat),
      (∀ t ∈ tbs, ∀ e ∈ t, e < S) → (∀ a ∈ acc, a < S) →
      ∀ s ∈ backtrack tbs last acc, s < S := by
  intro tbs
  induction tbs with
  | nil =>
    intro last acc _ hacc s hs
    exact hacc s hs
  | cons t rest ih =>
    intro last acc htbs hacc s hs
    rw [backtrack] at hs
    refine ih (t.getD last 0) _ (fun u hu => htbs u (List.mem_cons_of_mem t hu)) ?_ s hs
    intro a ha
    rcases List.mem_cons.mp ha with rfl | ha2
    · by_cases hlast : last < t.length
      · have : t.getD last 0 ∈ t := by
          rw [List.getD_eq_getElem _ _ hlast]
          exact List.getElem_mem hlast
        exact htbs t (List.mem_cons_self t rest) _ this
      · rw [List.getD_eq_default _ _ (by omega)]
        omega
    · exact hacc a ha2

/-- The source's backward loop and the spec's backward reconstruction are the
    same recursion. -/
theorem backtrack_eq_specBackward : ∀ (tbs : List (List Nat)) (last : Nat) (acc : List Nat),
    backtrack tbs last acc = specBackward tbs last acc := by
  intro tbs
  induction tbs with
  | nil => intro last acc; rfl
  | cons t rest ih =>
    intro last acc
    rw [backtrack, specBackward, ih]

/-- Destructing a successful HiddenMarkov::new: the stored fields are the
    validated inputs after the -log transform. -/
theorem hmm_new_elim (mlog : α → α) (initials : Vector α)
    (transitions observation_model : Matrix α) (hmm : HiddenMarkov α)
    (h : HiddenMarkov.new mlog initials transitions observation_model = some hmm) :
    hmm.state_count = initials.len ∧ 2 ≤ initials.len ∧
    hmm.labels_count = observation_model.cols ∧
    hmm.init_states = initials.minus_log mlog ∧
    hmm.state_transitions = transitions.minus_log mlog ∧
    hmm.observation_model = observation_model.minus_log mlog := by
  unfold HiddenMarkov.new at h
  dsimp only at h
  split_ifs at h with h1 h2 h3 h4
  injection h with h
  subst h
  exact ⟨rfl, by omega, rfl, rfl, rfl, rfl⟩

/-- The in-range invariant of the backward loop: at every step the current
    last_state indexes into the current traceback row (tbs in reversed,
    last-step-first order), so the source's tracebacks[i][last_state] never
    panics. -/
def backtrackSafe : List (List Nat) → Nat → Prop
  | [], _ => True
  | t :: rest, last => last < t.length ∧ backtrackSafe rest (t.getD last 0)

/-- Traceback rows of length S with entries below S keep every backward-loop
    index in range when the initial index is below S. -/
theorem backtrackSafe_of_bounds (S : Nat) : ∀ (tbs : List (List Nat)) (last : Nat),
    (∀ t ∈ tbs, t.length = S ∧ ∀ e ∈ t, e < S) → last < S → backtrackSafe tbs last := by
  intro tbs
  induction tbs with
  | nil => intro last _ _; trivial
  | cons t rest ih =>
    intro last htbs hlast
    obtain ⟨hlen, hent⟩ := htbs t (List.mem_cons_self t rest)
    have hin : last < t.length := by omega
    refine ⟨hin, ih _ (fun u hu => htbs u (List.mem_cons_of_mem t hu)) ?_⟩
    have : t.getD last 0 ∈ t := by
      rw [List.getD_eq_getElem _ _ hin]
      exact List.getElem_mem hin
    exact hent _ this

/-- The shape facts a successful construction gives the decoder, under the
    input shape assumptions (transitions square over the states, emissions
    with one row per state) that the constructor itself does not re-check. -/
theorem hmm_new_shapes (mlog : α → α) (initials : Vector α)
    (transitions observation_model : Matrix α) (hmm : HiddenMarkov α)
    (hnew : HiddenMarkov.new mlog initials transitions observation_model = some hmm)
    (htWF : transitions.WF) (htr : transitions.rows = initials.len)
    (htc : transitions.cols = initials.len)
    (heWF : observation_model.WF) (her : observation_model.rows = initials.len) :
    2 ≤ hmm.state_count ∧
    hmm.init_states.len = hmm.state_count ∧
    hmm.state_transitions.WF ∧
    hmm.state_transitions.rows = hmm.state_count ∧
    hmm.state_transitions.cols = hmm.state_count ∧
    hmm.observation_model.WF ∧
    hmm.observation_model.rows = hmm.state_count ∧
    hmm.observation_model.cols = hmm.labels_count := by
  obtain ⟨hsc, h2, hlc, hinit, htrans, hobs⟩ :=
    hmm_new_elim mlog initials transitions observation_model hmm hnew
  refine ⟨by omega, ?_, ?_, ?_, ?_, ?_, ?_, ?_⟩
  · rw [hinit, hsc]
    show (initials.data.map mlog).length = initials.len
    rw [List.length_map]
    rfl
  · rw [htrans]
    exact minus_log_WF transitions mlog htWF
  · rw [htrans, hsc]
    show transitions.rows = initials.len
    exact htr
  · rw [htrans, hsc]
    show transitions.cols = initials.len
    exact htc
  · rw [hobs]
    exact minus_log_WF observation_model mlog heWF
  · rw [hobs, hsc]
    show observation_model.rows = initials.len
    exact her
  · rw [hobs, hlc]
    rfl

/-- The two validation guards of map_estimate pass on a nonempty observation
    list whose labels are all below labels_count. -/
theorem map_estimate_guards (hmm : HiddenMarkov α) (obs : List Nat)
    (hne : obs ≠ []) (hlab : ∀ x ∈ obs, x < hmm.labels_count) :
    hmm.map_estimate obs =
      backtrack (HiddenMarkov.viterbi_forward hmm obs hmm.init_states).2.reverse
        (Vector.argmin (HiddenMarkov.viterbi_forward hmm obs hmm.init_states).1) [] := by
  have hguard1 : ¬ obs.length = 0 := by
    cases obs with
    | nil => exact absurd rfl hne
    | cons x xs => simp
  have hguard2 : ¬ (obs.any (fun x => decide (hmm.labels_count ≤ x)) = true) := by
    simp only [List.any_eq_true, decide_eq_true_eq, not_exists, not_and, not_le]
    exact hlab
  rw [HiddenMarkov.map_estimate, if_neg hguard1, if_neg hguard2]

/-- C2: on a validly constructed model whose transition matrix is
    state_count-by-state_count and whose emission matrix has state_count rows,
    map_estimate of a nonempty observation list with labels below labels_count
    returns exactly one state per observation, every state index below
    state_count. -/
theorem map_estimate_length_and_range (mlog : α → α) (initials : Vector α)
    (transitions observation_model : Matrix α) (hmm : HiddenMarkov α)
    (hnew : HiddenMarkov.new mlog initials transitions observation_model = some hmm)
    (htWF : transitions.WF) (htr : transitions.rows = initials.len)
    (htc : transitions.cols = initials.len)
    (heWF : observation_model.WF) (her : observation_model.rows = initials.len)
    (obs : List Nat) (hne : obs ≠ []) (hlab : ∀ x ∈ obs, x < hmm.labels_count) :
    (hmm.map_estimate obs).length = obs.length ∧
    ∀ s ∈ hmm.map_estimate obs, s < hmm.state_count := by
  obtain ⟨hS2, hinitlen, htWF2, htr2, htc2, heWF2, her2, hec2⟩ :=
    hmm_new_shapes mlog initials transitions observation_model hmm hnew
      htWF htr htc heWF her
  have hS : 1 ≤ hmm.state_count := by omega
  obtain ⟨hf1, hf2, hf3⟩ := viterbi_forward_bounds hmm htWF2 htr2 htc2 hS obs
    hmm.init_states hinitlen
  rw [map_estimate_guards hmm obs hne hlab]
  constructor
  · rw [backtrack_length, List.length_reverse, hf2]
    simp
  · intro s hs
    exact backtrack_bound hmm.state_count hS _ _ []
      (fun t ht => (hf3 t (List.mem_reverse.mp ht)).2) (by simp) s hs

/-- C2 witness: a concrete 2-state 2-label integer model and a 2-observation
    decode. -/
theorem map_estimate_length_and_range_witness :
    (HiddenMarkov.new (fun x => x) (Vector.mk [(1 : ℤ), 1])
        (Matrix.mk 2 2 [[0, 1], [1, 0]]) (Matrix.mk 2 2 [[0, 0], [0, 0]]) =
      some (HiddenMarkov.mk 2 2 (Vector.mk [(1 : ℤ), 1])
        (Matrix.mk 2 2 [[0, 1], [1, 0]]) (Matrix.mk 2 2 [[0, 0], [0, 0]])) ∧
      (Matrix.mk 2 2 [[(0 : ℤ), 1], [1, 0]]).WF ∧
      (Matrix.mk 2 2 [[(0 : ℤ), 1], [1, 0]]).rows = (Vector.mk [(1 : ℤ), 1]).len ∧
      (Matrix.mk 2 2 [[(0 : ℤ), 1], [1, 0]]).cols = (Vector.mk [(1 : ℤ), 1]).len ∧
      (Matrix.mk 2 2 [[(0 : ℤ), 0], [0, 0]]).WF ∧
      (Matrix.mk 2 2 [[(0 : ℤ), 0], [0, 0]]).rows = (Vector.mk [(1 : ℤ), 1]).len ∧
      ([0, 1] : List Nat) ≠ [] ∧
      (∀ x ∈ ([0, 1] : List Nat),
        x < (HiddenMarkov.mk 2 2 (Vector.mk [(1 : ℤ), 1])
          (Matrix.mk 2 2 [[0, 1], [1, 0]]) (Matrix.mk 2 2 [[0, 0], [0, 0]])).labels_count)) ∧
    (((HiddenMarkov.mk 2 2 (Vector.mk [(1 : ℤ), 1]) (Matrix.mk 2 2 [[0, 1], [1, 0]])
        (Matrix.mk 2 2 [[0, 0], [0, 0]])).map_estimate [0, 1]).length =
      ([0, 1] : List Nat).length ∧
     ∀ s ∈ (HiddenMarkov.mk 2 2 (Vector.mk [(1 : ℤ), 1]) (Matrix.mk 2 2 [[0, 1], [1, 0]])
        (Matrix.mk 2 2 [[0, 0], [0, 0]])).map_estimate [0, 1],
       s < (HiddenMarkov.mk 2 2 (Vector.mk [(1 : ℤ), 1]) (Matrix.mk 2 2 [[0, 1], [1, 0]])
        (Matrix.mk 2 2 [[0, 0], [0, 0]])).state_count) := by
  refine ⟨⟨by decide, by decide, by decide, by decide, by decide, by decide,
    by decide, by decide⟩, ?_⟩
  exact map_estimate_length_and_range (fun x => x) (Vector.mk [(1 : ℤ), 1])
    (Matrix.mk 2 2 [[0, 1], [1, 0]]) (Matrix.mk 2 2 [[0, 0], [0, 0]])
    (HiddenMarkov.mk 2 2 (Vector.mk [(1 : ℤ), 1]) (Matrix.mk 2 2 [[0, 1], [1, 0]])
      (Matrix.mk 2 2 [[0, 0], [0, 0]]))
    (by decide) (by decide) (by decide) (by decide) (by decide) (by decide)
    [0, 1] (by decide) (by decide)

/-- C10: on a validly constructed, shape-consistent model and a validated
    observation list, the decode is total: every emission-column lookup
    succeeds (the unwrap's error branch is unreachable), the forward pass
    produces a state-count message and per-step traceback rows of state-count
    in-range entries, the final argmin is in range, and every index the
    backward loop uses stays in range (backtrackSafe). -/
theorem map_estimate_total (mlog : α → α) (initials : Vector α)
    (transitions observation_model : Matrix α) (hmm : HiddenMarkov α)
    (hnew : HiddenMarkov.new mlog initials transitions observation_model = some hmm)
    (htWF : transitions.WF) (htr : transitions.rows = initials.len)
    (htc : transitions.cols = initials.len)
    (heWF : observation_model.WF) (her : observation_model.rows = initials.len)
    (obs : List Nat) (hne : obs ≠ []) (hlab : ∀ x ∈ obs, x < hmm.labels_count) :
    (∀ x ∈ obs, (hmm.observation_model.column x).isSome = true) ∧
    (HiddenMarkov.viterbi_forward hmm obs hmm.init_states).1.len = hmm.state_count ∧
    (HiddenMarkov.viterbi_forward hmm obs hmm.init_states).2.length = obs.length ∧
    (∀ t ∈ (HiddenMarkov.viterbi_forward hmm obs hmm.init_states).2,
      t.length = hmm.state_count ∧ ∀ e ∈ t, e < hmm.state_count) ∧
    Vector.argmin (HiddenMarkov.viterbi_forward hmm obs hmm.init_states).1 <
      (HiddenMarkov.viterbi_forward hmm obs hmm.init_states).1.len ∧
    backtrackSafe (HiddenMarkov.viterbi_forward hmm obs hmm.init_states).2.reverse
      (Vector.argmin (HiddenMarkov.viterbi_forward hmm obs hmm.init_states).1) := by
  obtain ⟨hS2, hinitlen, htWF2, htr2, htc2, heWF2, her2, hec2⟩ :=
    hmm_new_shapes mlog initials transitions observation_model hmm hnew
      htWF htr htc heWF her
  have hS : 1 ≤ hmm.state_count := by omega
  obtain ⟨hf1, hf2, hf3⟩ := viterbi_forward_bounds hmm htWF2 htr2 htc2 hS obs
    hmm.init_states hinitlen
  have hfne : (HiddenMarkov.viterbi_forward hmm obs hmm.init_states).1.data ≠ [] := by
    intro h
    have : (HiddenMarkov.viterbi_forward hmm obs hmm.init_states).1.len = 0 := by
      rw [Vector.len, h]
      rfl
    omega
  have hargmin := (Vector.argmin_spec _ hfne).1
  refine ⟨?_, hf1, hf2, hf3, hargmin, ?_⟩
  · intro x hx
    rw [Matrix.column, if_neg (by
      have := hlab x hx
      omega)]
    rfl
  · apply backtrackSafe_of_bounds hmm.state_count
    · intro t ht
      exact hf3 t (List.mem_reverse.mp ht)
    · omega

/-- C10 witness: the concrete 2-state 2-label integer model. -/
theorem map_estimate_total_witness :
    (HiddenMarkov.new (fun x => x) (Vector.mk [(1 : ℤ), 1])
        (Matrix.mk 2 2 [[0, 1], [1, 0]]) (Matrix.mk 2 2 [[0, 2], [2, 0]]) =
      some (HiddenMarkov.mk 2 2 (Vector.mk [(1 : ℤ), 1])
        (Matrix.mk 2 2 [[0, 1], [1, 0]]) (Matrix.mk 2 2 [[0, 2], [2, 0]]))) ∧
    ((∀ x ∈ ([1, 0] : List Nat),
        ((HiddenMarkov.mk 2 2 (Vector.mk [(1 : ℤ), 1]) (Matrix.mk 2 2 [[0, 1], [1, 0]])
          (Matrix.mk 2 2 [[0, 2], [2, 0]])).observation_model.column x).isSome = true) ∧
      backtrackSafe
        (HiddenMarkov.viterbi_forward
          (HiddenMarkov.mk 2 2 (Vector.mk [(1 : ℤ), 1]) (Matrix.mk 2 2 [[0, 1], [1, 0]])
            (Matrix.mk 2 2 [[0, 2], [2, 0]])) [1, 0]
          (HiddenMarkov.mk 2 2 (Vector.mk [(1 : ℤ), 1]) (Matrix.mk 2 2 [[0, 1], [1, 0]])
            (Matrix.mk 2 2 [[0, 2], [2, 0]])).init_states).2.reverse
        (Vector.argmin
          (HiddenMarkov.viterbi_forward
            (HiddenMarkov.mk 2 2 (Vector.mk [(1 : ℤ), 1]) (Matrix.mk 2 2 [[0, 1], [1, 0]])
              (Matrix.mk 2 2 [[0, 2], [2, 0]])) [1, 0]
            (HiddenMarkov.mk 2 2 (Vector.mk [(1 : ℤ), 1]) (Matrix.mk 2 2 [[0, 1], [1, 0]])
              (Matrix.mk 2 2 [[0, 2], [2, 0]])).init_states).1)) := by
  refine ⟨by decide, ?_, ?_⟩
  · exact (map_estimate_total (fun x => x) (Vector.mk [(1 : ℤ), 1])
      (Matrix.mk 2 2 [[0, 1], [1, 0]]) (Matrix.mk 2 2 [[0, 2], [2, 0]])
      (HiddenMarkov.mk 2 2 (Vector.mk [(1 : ℤ), 1]) (Matrix.mk 2 2 [[0, 1], [1, 0]])
        (Matrix.mk 2 2 [[0, 2], [2, 0]]))
      (by decide) (by decide) (by decide) (by decide) (by decide) (by decide)
      [1, 0] (by decide) (by decide)).1
  · exact (map_estimate_total (fun x => x) (Vector.mk [(1 : ℤ), 1])
      (Matrix.mk 2 2 [[0, 1], [1, 0]]) (Matrix.mk 2 2 [[0, 2], [2, 0]])
      (HiddenMarkov.mk 2 2 (Vector.mk [(1 : ℤ), 1]) (Matrix.mk 2 2 [[0, 1], [1, 0]])
        (Matrix.mk 2 2 [[0, 2], [2, 0]]))
      (by decide) (by decide) (by decide) (by decide) (by decide) (by decide)
      [1, 0] (by decide) (by decide)).2.2.2.2.2

/-- C1: on a validly constructed, shape-consistent model and a validated
    nonempty observation list, map_estimate computes exactly the spec's
    log-cost Viterbi recurrence: cost vector started at init_costs; per step
    the emission column added elementwise, row-broadcast onto the transition
    costs, column-wise minimum as the next cost vector and column-wise
    first-occurrence argmin as the backpointers; finally argmin of the cost
    vector and the backward reconstruction of the path. -/
theorem map_estimate_eq_specViterbi (mlog : α → α) (initials : Vector α)
    (transitions observation_model : Matrix α) (hmm : HiddenMarkov α)
    (hnew : HiddenMarkov.new mlog initials transitions observation_model = some hmm)
    (htWF : transitions.WF) (htr : transitions.rows = initials.len)
    (htc : transitions.cols = initials.len)
    (heWF : observation_model.WF) (her : observation_model.rows = initials.len)
    (obs : List Nat) (hne : obs ≠ []) (hlab : ∀ x ∈ obs, x < hmm.labels_count) :
    hmm.map_estimate obs = specViterbi hmm obs := by
  obtain ⟨hS2, hinitlen, htWF2, htr2, htc2, heWF2, her2, hec2⟩ :=
    hmm_new_shapes mlog initials transitions observation_model hmm hnew
      htWF htr htc heWF her
  have hS : 1 ≤ hmm.state_count := by omega
  obtain ⟨hfs1, hfs2⟩ := viterbi_forward_spec hmm htWF2 htr2 htc2 heWF2 her2 hS obs
    hmm.init_states hinitlen (fun l hl => by rw [hec2]; exact hlab l hl)
  obtain ⟨hf1, _, _⟩ := viterbi_forward_bounds hmm htWF2 htr2 htc2 hS obs
    hmm.init_states hinitlen
  have hfne : (HiddenMarkov.viterbi_forward hmm obs hmm.init_states).1.data ≠ [] := by
    intro h
    have : (HiddenMarkov.viterbi_forward hmm obs hmm.init_states).1.len = 0 := by
      rw [Vector.len, h]
      rfl
    omega
  rw [map_estimate_guards hmm obs hne hlab, specViterbi]
  rw [← hfs1, ← hfs2, backtrack_eq_specBackward,
    vector_argmin_eq_spec _ hfne]

/-- C1 witness: the concrete 2-state 2-label integer model, source decode
    versus spec decode. -/
theorem map_estimate_eq_specViterbi_witness :
    (HiddenMarkov.new (fun x => x) (Vector.mk [(1 : ℤ), 1])
        (Matrix.mk 2 2 [[0, 1], [1, 0]]) (Matrix.mk 2 2 [[0, 2], [2, 0]]) =
      some (HiddenMarkov.mk 2 2 (Vector.mk [(1 : ℤ), 1])
        (Matrix.mk 2 2 [[0, 1], [1, 0]]) (Matrix.mk 2 2 [[0, 2], [2, 0]]))) ∧
    (HiddenMarkov.mk 2 2 (Vector.mk [(1 : ℤ), 1]) (Matrix.mk 2 2 [[0, 1], [1, 0]])
        (Matrix.mk 2 2 [[0, 2], [2, 0]])).map_estimate [0, 1, 1] =
      specViterbi (HiddenMarkov.mk 2 2 (Vector.mk [(1 : ℤ), 1])
        (Matrix.mk 2 2 [[0, 1], [1, 0]]) (Matrix.mk 2 2 [[0, 2], [2, 0]])) [0, 1, 1] := by
  refine ⟨by decide, ?_⟩
  exact map_estimate_eq_specViterbi (fun x => x) (Vector.mk [(1 : ℤ), 1])
    (Matrix.mk 2 2 [[0, 1], [1, 0]]) (Matrix.mk 2 2 [[0, 2], [2, 0]])
    (HiddenMarkov.mk 2 2 (Vector.mk [(1 : ℤ), 1]) (Matrix.mk 2 2 [[0, 1], [1, 0]])
      (Matrix.mk 2 2 [[0, 2], [2, 0]]))
    (by decide) (by decide) (by decide) (by decide) (by decide) (by decide)
    [0, 1, 1] (by decide) (by decide)

/-- The strict-replacement fold value on two candidates is their minimum
    (ties keep the first). -/
theorem ite_lt_min (p q : α) : (if q < p then q else p) = min p q := by
  rcases le_or_lt p q with h | h
  · rw [if_neg (not_lt.mpr h), min_eq_left h]
  · rw [if_pos h, min_eq_right (le_of_lt h)]

/-- One decoder step on a concrete 2-state model, entries symbolic: the next
    message takes the columnwise minima and the traceback row records whether
    row 1 strictly beat row 0. -/
theorem next_msg_pair (hmm : HiddenMarkov α) (t00 t01 t10 t11 : α)
    (ht : hmm.state_transitions = ⟨2, 2, [[t00, t01], [t10, t11]]⟩)
    (phi : Vector α) (a b : α) (hphi : phi = ⟨[a, b]⟩) :
    hmm.next_msg_and_traceback phi =
      (⟨[min (t00 + a) (t10 + b), min (t01 + a) (t11 + b)]⟩,
       [if t10 + b < t00 + a then 1 else 0, if t11 + b < t01 + a then 1 else 0]) := by
  subst hphi
  have hmat : hmm.state_transitions.add_to_columns ⟨[a, b]⟩ =
      ⟨2, 2, [[t00 + a, t01 + a], [t10 + b, t11 + b]]⟩ := by
    rw [ht]
    show Matrix.mk 2 2 (addColsAux ⟨[a, b]⟩ (min 2 2) 0 [[t00, t01], [t10, t11]]) = _
    norm_num [addColsAux, Vector.get]
  have hnm : hmm.next_msg_and_traceback ⟨[a, b]⟩ =
      ((hmm.state_transitions.add_to_columns ⟨[a, b]⟩).min_by_column,
       (hmm.state_transitions.add_to_columns ⟨[a, b]⟩).argmin_by_column) := rfl
  rw [hnm, hmat, Prod.mk.injEq]
  constructor
  · show Vector.mk ((minColAux (List.replicate 2 none)
      [[t00 + a, t01 + a], [t10 + b, t11 + b]]).map (fun o => o.getD 0)) = _
    rw [show List.replicate 2 (none : Option α) = [none, none] from rfl]
    rw [show minColAux [(none : Option α), none] [[t00 + a, t01 + a], [t10 + b, t11 + b]] =
        minColUpd (minColUpd [none, none] [t00 + a, t01 + a]) [t10 + b, t11 + b] from rfl]
    rw [show minColUpd [(none : Option α), none] [t00 + a, t01 + a] =
        [some (t00 + a), some (t01 + a)] from by simp [minColUpd, ltSentinel]]
    rw [show minColUpd [some (t00 + a), some (t01 + a)] [t10 + b, t11 + b] =
        [if t10 + b < t00 + a then some (t10 + b) else some (t00 + a),
         if t11 + b < t01 + a then some (t11 + b) else some (t01 + a)] from by
      simp only [minColUpd, ltSentinel, decide_eq_true_eq]]
    have g1 : (if t10 + b < t00 + a then some (t10 + b) else some (t00 + a)).getD 0 =
        min (t00 + a) (t10 + b) := by
      rw [← ite_lt_min]
      split <;> rfl
    have g2 : (if t11 + b < t01 + a then some (t11 + b) else some (t01 + a)).getD 0 =
        min (t01 + a) (t11 + b) := by
      rw [← ite_lt_min]
      split <;> rfl
    simp only [List.map_cons, List.map_nil, g1, g2]
  · show (argColAux 0 (List.replicate 2 (none, 0))
      [[t00 + a, t01 + a], [t10 + b, t11 + b]]).map (fun p => p.2) = _
    rw [show List.replicate 2 ((none : Option α), 0) = [(none, 0), (none, 0)] from rfl]
    rw [show argColAux 0 [((none : Option α), 0), (none, 0)]
        [[t00 + a, t01 + a], [t10 + b, t11 + b]] =
        argColUpd 1 (argColUpd 0 [(none, 0), (none, 0)] [t00 + a, t01 + a])
          [t10 + b, t11 + b] from rfl]
    rw [show argColUpd 0 [((none : Option α), 0), (none, 0)] [t00 + a, t01 + a] =
        [(some (t00 + a), 0), (some (t01 + a), 0)] from by simp [argColUpd, ltSentinel]]
    rw [show argColUpd 1 [(some (t00 + a), 0), (some (t01 + a), 0)] [t10 + b, t11 + b] =
        [if t10 + b < t00 + a then (some (t10 + b), 1) else (some (t00 + a), 0),
         if t11 + b < t01 + a then (some (t11 + b), 1) else (some (t01 + a), 0)] from by
      simp only [argColUpd, ltSentinel, decide_eq_true_eq]]
    have g3 : (if t10 + b < t00 + a then (some (t10 + b), 1)
        else ((some (t00 + a), 0) : Option α × Nat)).2 =
        if t10 + b < t00 + a then 1 else 0 := by split <;> rfl
    have g4 : (if t11 + b < t01 + a then (some (t11 + b), 1)
        else ((some (t01 + a), 0) : Option α × Nat)).2 =
        if t11 + b < t01 + a then 1 else 0 := by split <;> rfl
    simp only [List.map_cons, List.map_nil, g3, g4]

/-- Unfolding one forward step once the step's message and traceback are
    known. -/
theorem viterbi_forward_cons (hmm : HiddenMarkov α) (o : Nat) (rest : List Nat)
    (msg msg2 : Vector α) (tb : List Nat)
    (h : hmm.next_msg_and_traceback (msg.add_vector (hmm.state_from_observation o)) =
      (msg2, tb)) :
    HiddenMarkov.viterbi_forward hmm (o :: rest) msg =
      ((HiddenMarkov.viterbi_forward hmm rest msg2).1,
        tb :: (HiddenMarkov.viterbi_forward hmm rest msg2).2) := by
  simp only [HiddenMarkov.viterbi_forward]
  rw [h]

/-- Vector::argmin of a two-entry vector whose second entry strictly wins. -/
theorem vector_argmin_pair_right (a b : α) (h : b < a) :
    Vector.argmin ⟨[a, b]⟩ = 1 := by
  rw [show Vector.argmin ⟨[a, b]⟩ = (argminAux 1 (0, a) [b]).1 from
    vector_argmin_cons a [b]]
  show (argminAux 2 (if b < a then (1, b) else (0, a)) []).1 = 1
  rw [if_pos h]
  rfl

/-- Two-entry vectors with equal entries are equal. -/
theorem vec_pair_eq (a b c d : α) (h1 : a = c) (h2 : b = d) :
    (Vector.mk [a, b] : Vector α) = ⟨[c, d]⟩ := by rw [h1, h2]

/-- The two-coin model in already-log-transformed form, parameterized by the
    cost lam of the probability-3/4 outcomes (the -log2 costs of 1/2 and 1/4
    are exactly 1 and 2). -/
def coinsHmm (lam : ℝ) : HiddenMarkov ℝ :=
  ⟨2, 2, ⟨[1, 1]⟩, ⟨2, 2, [[lam, 2], [2, lam]]⟩, ⟨2, 2, [[1, 1], [2, lam]]⟩⟩

/-- Decode of observations H H T T T on the two-coin model: the state path is
    Fair Fair Biased Biased Biased, for every cost lam of the 3/4 outcomes
    with 0 < lam < 1/2 (which -log2 (3/4) satisfies). -/
theorem coins_decode (lam : ℝ) (h0 : 0 < lam) (hh : lam < 1 / 2) :
    (coinsHmm lam).map_estimate [0, 0, 1, 1, 1] = [0, 0, 1, 1, 1] := by
  have col0 : (coinsHmm lam).state_from_observation 0 = ⟨[(1 : ℝ), 2]⟩ := rfl
  have col1 : (coinsHmm lam).state_from_observation 1 = ⟨[(1 : ℝ), lam]⟩ := rfl
  have ht : (coinsHmm lam).state_transitions = ⟨2, 2, [[lam, 2], [2, lam]]⟩ := rfl
  have e1 : (Vector.mk [(1 : ℝ), 1]).add_vector ((coinsHmm lam).state_from_observation 0) =
      ⟨[(2 : ℝ), 3]⟩ := by
    rw [col0]
    show Vector.mk [(1 : ℝ) + 1, 1 + 2] = _
    exact vec_pair_eq _ _ _ _ (by norm_num) (by norm_num)
  have n1 : (coinsHmm lam).next_msg_and_traceback
      ((Vector.mk [(1 : ℝ), 1]).add_vector ((coinsHmm lam).state_from_observation 0)) =
      (⟨[lam + 2, lam + 3]⟩, [0, 1]) := by
    rw [next_msg_pair (coinsHmm lam) lam 2 2 lam ht _ 2 3 e1, Prod.mk.injEq]
    constructor
    · rw [min_eq_left (by linarith), min_eq_right (by linarith)]
    · rw [if_neg (by linarith), if_pos (by linarith)]
  have e2 : (Vector.mk [lam + 2, lam + 3]).add_vector
      ((coinsHmm lam).state_from_observation 0) = ⟨[lam + 3, lam + 5]⟩ := by
    rw [col0]
    show Vector.mk [lam + 2 + 1, lam + 3 + 2] = _
    exact vec_pair_eq _ _ _ _ (by ring) (by ring)
  have n2 : (coinsHmm lam).next_msg_and_traceback
      ((Vector.mk [lam + 2, lam + 3]).add_vector ((coinsHmm lam).state_from_observation 0)) =
      (⟨[2 * lam + 3, lam + 5]⟩, [0, 0]) := by
    rw [next_msg_pair (coinsHmm lam) lam 2 2 lam ht _ (lam + 3) (lam + 5) e2,
      Prod.mk.injEq]
    constructor
    · rw [min_eq_left (by linarith), min_eq_left (by linarith)]
      exact vec_pair_eq _ _ _ _ (by ring) (by ring)
    · rw [if_neg (by linarith), if_neg (by linarith)]
  have e3 : (Vector.mk [2 * lam + 3, lam + 5]).add_vector
      ((coinsHmm lam).state_from_observation 1) = ⟨[2 * lam + 4, 2 * lam + 5]⟩ := by
    rw [col1]
    show Vector.mk [2 * lam + 3 + 1, lam + 5 + lam] = _
    exact vec_pair_eq _ _ _ _ (by ring) (by ring)
  have n3 : (coinsHmm lam).next_msg_and_traceback
      ((Vector.mk [2 * lam + 3, lam + 5]).add_vector
        ((coinsHmm lam).state_from_observation 1)) =
      (⟨[3 * lam + 4, 3 * lam + 5]⟩, [0, 1]) := by
    rw [next_msg_pair (coinsHmm lam) lam 2 2 lam ht _ (2 * lam + 4) (2 * lam + 5) e3,
      Prod.mk.injEq]
    constructor
    · rw [min_eq_left (by linarith), min_eq_right (by linarith)]
      exact vec_pair_eq _ _ _ _ (by ring) (by ring)
    · rw [if_neg (by linarith), if_pos (by linarith)]
  have e4 : (Vector.mk [3 * lam + 4, 3 * lam + 5]).add_vector
      ((coinsHmm lam).state_from_observation 1) = ⟨[3 * lam + 5, 4 * lam + 5]⟩ := by
    rw [col1]
    show Vector.mk [3 * lam + 4 + 1, 3 * lam + 5 + lam] = _
    exact vec_pair_eq _ _ _ _ (by ring) (by ring)
  have n4 : (coinsHmm lam).next_msg_and_traceback
      ((Vector.mk [3 * lam + 4, 3 * lam + 5]).add_vector
        ((coinsHmm lam).state_from_observation 1)) =
      (⟨[4 * lam + 5, 5 * lam + 5]⟩, [0, 1]) := by
    rw [next_msg_pair (coinsHmm lam) lam 2 2 lam ht _ (3 * lam + 5) (4 * lam + 5) e4,
      Prod.mk.injEq]
    constructor
    · rw [min_eq_left (by linarith), min_eq_right (by linarith)]
      exact vec_pair_eq _ _ _ _ (by ring) (by ring)
    · rw [if_neg (by linarith), if_pos (by linarith)]
  have e5 : (Vector.mk [4 * lam + 5, 5 * lam + 5]).add_vector
      ((coinsHmm lam).state_from_observation 1) = ⟨[4 * lam + 6, 6 * lam + 5]⟩ := by
    rw [col1]
    show Vector.mk [4 * lam + 5 + 1, 5 * lam + 5 + lam] = _
    exact vec_pair_eq _ _ _ _ (by ring) (by ring)
  have n5 : (coinsHmm lam).next_msg_and_traceback
      ((Vector.mk [4 * lam + 5, 5 * lam + 5]).add_vector
        ((coinsHmm lam).state_from_observation 1)) =
      (⟨[5 * lam + 6, 7 * lam + 5]⟩, [0, 1]) := by
    rw [next_msg_pair (coinsHmm lam) lam 2 2 lam ht _ (4 * lam + 6) (6 * lam + 5) e5,
      Prod.mk.injEq]
    constructor
    · rw [min_eq_left (by linarith), min_eq_right (by linarith)]
      exact vec_pair_eq _ _ _ _ (by ring) (by ring)
    · rw [if_neg (by linarith), if_pos (by linarith)]
  have hlab : ∀ x ∈ ([0, 0, 1, 1, 1] : List Nat), x < (coinsHmm lam).labels_count := by
    intro x hx
    fin_cases hx <;> norm_num [coinsHmm]
  rw [map_estimate_guards (coinsHmm lam) [0, 0, 1, 1, 1] (by simp) hlab]
  rw [show (coinsHmm lam).init_states = ⟨[(1 : ℝ), 1]⟩ from rfl]
  rw [viterbi_forward_cons (coinsHmm lam) 0 [0, 1, 1, 1] ⟨[(1 : ℝ), 1]⟩
    ⟨[lam + 2, lam + 3]⟩ [0, 1] n1]
  rw [viterbi_forward_cons (coinsHmm lam) 0 [1, 1, 1] ⟨[lam + 2, lam + 3]⟩
    ⟨[2 * lam + 3, lam + 5]⟩ [0, 0] n2]
  rw [viterbi_forward_cons (coinsHmm lam) 1 [1, 1] ⟨[2 * lam + 3, lam + 5]⟩
    ⟨[3 * lam + 4, 3 * lam + 5]⟩ [0, 1] n3]
  rw [viterbi_forward_cons (coinsHmm lam) 1 [1] ⟨[3 * lam + 4, 3 * lam + 5]⟩
    ⟨[4 * lam + 5, 5 * lam + 5]⟩ [0, 1] n4]
  rw [viterbi_forward_cons (coinsHmm lam) 1 [] ⟨[4 * lam + 5, 5 * lam + 5]⟩
    ⟨[5 * lam + 6, 7 * lam + 5]⟩ [0, 1] n5]
  rw [show HiddenMarkov.viterbi_forward (coinsHmm lam) []
      (⟨[5 * lam + 6, 7 * lam + 5]⟩ : Vector ℝ) =
      ((⟨[5 * lam + 6, 7 * lam + 5]⟩ : Vector ℝ), ([] : List (List Nat))) from rfl]
  dsimp only
  rw [vector_argmin_pair_right (5 * lam + 6) (7 * lam + 5) (by linarith)]
  rfl

/-- C8: the two-coin model of the repo's test (initials 0.5/0.5, transitions
    3/4 stay 1/4 switch, emissions fair coin 1/2 1/2 and biased coin 1/4 3/4),
    built with the real -log2 transform, decodes the observations 0 0 1 1 1
    (H H T T T) to the state path 0 0 1 1 1. -/
theorem two_coin_decode :
    (HiddenMarkov.new (fun x => -Real.logb 2 x) (Vector.mk [(0.5 : ℝ), 0.5])
      (Matrix.mk 2 2 [[0.75, 0.25], [0.25, 0.75]])
      (Matrix.mk 2 2 [[0.5, 0.5], [0.25, 0.75]])).map
      (fun hmm => hmm.map_estimate [0, 0, 1, 1, 1]) = some [0, 0, 1, 1, 1] := by
  have h4 : Real.logb 2 4 = 2 := by
    rw [show (4 : ℝ) = 2 * 2 by norm_num, Real.logb_mul (by norm_num) (by norm_num),
      Real.logb_self_eq_one (by norm_num)]
    norm_num
  have hub : Real.logb 2 3 < 2 := by
    calc Real.logb 2 3 < Real.logb 2 4 :=
          Real.logb_lt_logb (by norm_num) (by norm_num) (by norm_num)
      _ = 2 := h4
  have hlb : (3 : ℝ) / 2 < Real.logb 2 3 := by
    have hr : Real.logb 2 ((2 : ℝ) ^ ((3 : ℝ) / 2)) = 3 / 2 :=
      Real.logb_rpow (by norm_num) (by norm_num)
    rw [← hr]
    apply Real.logb_lt_logb (by norm_num) (Real.rpow_pos_of_pos (by norm_num) _)
    have hsq : ((2 : ℝ) ^ ((3 : ℝ) / 2)) ^ (2 : ℕ) = 8 := by
      rw [← Real.rpow_natCast ((2 : ℝ) ^ ((3 : ℝ) / 2)) 2, ← Real.rpow_mul (by norm_num)]
      rw [show ((3 : ℝ) / 2 * ((2 : ℕ) : ℝ) : ℝ) = ((3 : ℕ) : ℝ) by push_cast; ring]
      rw [Real.rpow_natCast]
      norm_num
    have h9 : ((2 : ℝ) ^ ((3 : ℝ) / 2)) ^ (2 : ℕ) < (3 : ℝ) ^ (2 : ℕ) := by
      rw [hsq]
      norm_num
    exact lt_of_pow_lt_pow_left₀ 2 (by norm_num) h9
  have e05 : -Real.logb 2 (0.5 : ℝ) = 1 := by
    rw [show (0.5 : ℝ) = 1 / 2 by norm_num, Real.logb_div (by norm_num) (by norm_num)]
    simp [Real.logb_self_eq_one]
  have e025 : -Real.logb 2 (0.25 : ℝ) = 2 := by
    rw [show (0.25 : ℝ) = 1 / 4 by norm_num, Real.logb_div (by norm_num) (by norm_num)]
    simp [h4]
  have e075 : -Real.logb 2 (0.75 : ℝ) = 2 - Real.logb 2 3 := by
    rw [show (0.75 : ℝ) = 3 / 4 by norm_num, Real.logb_div (by norm_num) (by norm_num), h4]
    ring
  have hip : (Vector.mk [(0.5 : ℝ), 0.5]).is_positive = true := by
    rw [vector_is_positive_iff]
    intro x hx
    fin_cases hx <;> norm_num
  have htp : (Matrix.mk 2 2 [[(0.75 : ℝ), 0.25], [0.25, 0.75]]).is_positive = true := by
    rw [matrix_is_positive_iff]
    intro r hr x hx
    fin_cases hr <;> fin_cases hx <;> norm_num
  have hop : (Matrix.mk 2 2 [[(0.5 : ℝ), 0.5], [0.25, 0.75]]).is_positive = true := by
    rw [matrix_is_positive_iff]
    intro r hr x hx
    fin_cases hr <;> fin_cases hx <;> norm_num
  have hinit : (Vector.mk [(0.5 : ℝ), 0.5]).minus_log (fun x => -Real.logb 2 x) =
      ⟨[1, 1]⟩ := by
    show Vector.mk [-Real.logb 2 (0.5 : ℝ), -Real.logb 2 (0.5 : ℝ)] = _
    rw [e05]
  have htrm : (Matrix.mk 2 2 [[(0.75 : ℝ), 0.25], [0.25, 0.75]]).minus_log
      (fun x => -Real.logb 2 x) =
      ⟨2, 2, [[2 - Real.logb 2 3, 2], [2, 2 - Real.logb 2 3]]⟩ := by
    show Matrix.mk 2 2 [[-Real.logb 2 (0.75 : ℝ), -Real.logb 2 (0.25 : ℝ)],
      [-Real.logb 2 (0.25 : ℝ), -Real.logb 2 (0.75 : ℝ)]] = _
    rw [e075, e025]
  have hobm : (Matrix.mk 2 2 [[(0.5 : ℝ), 0.5], [0.25, 0.75]]).minus_log
      (fun x => -Real.logb 2 x) =
      ⟨2, 2, [[1, 1], [2, 2 - Real.logb 2 3]]⟩ := by
    show Matrix.mk 2 2 [[-Real.logb 2 (0.5 : ℝ), -Real.logb 2 (0.5 : ℝ)],
      [-Real.logb 2 (0.25 : ℝ), -Real.logb 2 (0.75 : ℝ)]] = _
    rw [e05, e025, e075]
  have hnew : HiddenMarkov.new (fun x => -Real.logb 2 x) (Vector.mk [(0.5 : ℝ), 0.5])
      (Matrix.mk 2 2 [[0.75, 0.25], [0.25, 0.75]])
      (Matrix.mk 2 2 [[0.5, 0.5], [0.25, 0.75]]) =
      some (coinsHmm (2 - Real.logb 2 3)) := by
    simp only [HiddenMarkov.new]
    rw [if_neg (by decide), if_neg (by rw [hip]; decide), if_neg (by rw [htp]; decide),
      if_neg (by rw [hop]; decide)]
    rw [hinit, htrm, hobm]
    rfl
  rw [hnew]
  show some ((coinsHmm (2 - Real.logb 2 3)).map_estimate [0, 0, 1, 1, 1]) = _
  rw [coins_decode (2 - Real.logb 2 3) (by linarith) (by linarith)]

/-- Success of HiddenMarkov::new, spelled out: exactly the four source checks
    (state count and the three positivity tests); the emission column count is
    never inspected. -/
theorem HiddenMarkov.new_isSome_iff (mlog : α → α) (initials : Vector α)
    (transitions observation_model : Matrix α) :
    (HiddenMarkov.new mlog initials transitions observation_model).isSome = true ↔
      (2 ≤ initials.len ∧ initials.is_positive = true ∧
       transitions.is_positive = true ∧ observation_model.is_positive = true) := by
  unfold HiddenMarkov.new
  dsimp only
  split_ifs with h1 h2 h3 h4
  · simp only [Option.isSome_none, Bool.false_eq_true, false_iff]
    intro hc
    exact absurd hc.1 (by omega)
  · simp only [Bool.not_eq_true', Bool.not_eq_false] at h2
    simp [h2]
  · simp only [Bool.not_eq_true', Bool.not_eq_false] at h3
    simp [h3]
  · simp only [Bool.not_eq_true', Bool.not_eq_false] at h4
    simp [h4]
  · simp only [Bool.not_eq_true', Bool.not_eq_false] at h2 h3 h4
    simp only [Option.isSome_some, true_iff]
    exact ⟨by omega, h2, h3, h4⟩

/-- C3 counterexample: the two-coin initials and transitions together with a
    positive 2-by-1 emission matrix (a single outcome column) are accepted by
    HiddenMarkov::new, although emissions.cols() = 1 < 2. -/
theorem hmm_new_single_outcome_accepted :
    (Matrix.mk 2 1 [[(0.5 : ℝ)], [0.25]]).cols < 2 ∧
    (HiddenMarkov.new (fun x => -Real.logb 2 x) ⟨[(0.5 : ℝ), 0.5]⟩
      (Matrix.mk 2 2 [[0.75, 0.25], [0.25, 0.75]])
      (Matrix.mk 2 1 [[0.5], [0.25]])).isSome = true := by
  refine ⟨by norm_num, ?_⟩
  rw [HiddenMarkov.new_isSome_iff]
  refine ⟨by simp [Vector.len], ?_, ?_, ?_⟩
  · rw [vector_is_positive_iff]; intro x hx
    fin_cases hx <;> norm_num
  · rw [matrix_is_positive_iff]; intro r hr x hx
    fin_cases hr <;> fin_cases hx <;> norm_num
  · rw [matrix_is_positive_iff]; intro r hr x hx
    fin_cases hr <;> fin_cases hx <;> norm_num

/-- C3 (amended): HiddenMarkov::new never checks the number of emission
    columns; it succeeds exactly when the initials vector has at least two
    entries and initials, transitions and emissions are all nonnegative — in
    particular it succeeds on emission matrices with fewer than 2 columns. -/
theorem hmm_new_no_label_count_check (mlog : α → α) (initials : Vector α)
    (transitions observation_model : Matrix α) :
    (HiddenMarkov.new mlog initials transitions observation_model).isSome = true ↔
      (2 ≤ initials.len ∧ initials.is_positive = true ∧
       transitions.is_positive = true ∧ observation_model.is_positive = true) :=
  HiddenMarkov.new_isSome_iff mlog initials transitions observation_model

/-- C4 counterexample: Matrix::new accepts a single empty row and produces a
    matrix with zero columns, refuting cols ≥ 1. -/
theorem matrix_new_zero_cols_accepted :
    (Matrix.new [([] : List ℤ)]).map Matrix.cols = some 0 := rfl

/-- C4 (amended): every successfully constructed Matrix has at least one row,
    its stored row count matches the data, and it is rectangular (every row
    has exactly cols entries); cols however may be 0 — a nonempty list of
    empty rows is accepted — so cols ≥ 1 does not hold. -/
theorem matrix_new_invariant (data : List (List α)) (m : Matrix α)
    (h : Matrix.new data = some m) :
    1 ≤ m.rows ∧ m.rows = data.length ∧ m.WF := by
  unfold Matrix.new at h
  split at h
  · exact absurd h (by simp)
  · rename_i h1
    dsimp only at h
    split at h
    · exact absurd h (by simp)
    · rename_i h2
      injection h with h
      subst h
      simp only [List.any_eq_true, decide_eq_true_eq, not_exists, not_and,
        not_not] at h2
      exact ⟨by dsimp only; omega, rfl, rfl, fun r hr => h2 r hr⟩

/-- C4 witness: the invariant evaluated on the repo's 2-by-2 test input. -/
theorem matrix_new_invariant_witness :
    1 ≤ (Matrix.mk 2 2 [[(0.75 : ℚ), 0.25], [0.25, 0.75]]).rows ∧
    (Matrix.mk 2 2 [[(0.75 : ℚ), 0.25], [0.25, 0.75]]).rows =
      [[(0.75 : ℚ), 0.25], [0.25, 0.75]].length ∧
    (Matrix.mk 2 2 [[(0.75 : ℚ), 0.25], [0.25, 0.75]]).WF :=
  matrix_new_invariant [[(0.75 : ℚ), 0.25], [0.25, 0.75]]
    (Matrix.mk 2 2 [[(0.75 : ℚ), 0.25], [0.25, 0.75]]) rfl

/-- C6: HiddenMarkov::new yields no model whenever the initials vector has
    fewer than 2 entries, and whenever any entry of the initials vector, the
    transition matrix or the emission matrix is negative. -/
theorem hmm_new_rejects_invalid (mlog : α → α) (initials : Vector α)
    (transitions observation_model : Matrix α)
    (h : initials.len < 2 ∨ (∃ x ∈ initials.data, x < 0) ∨
         (∃ r ∈ transitions.data, ∃ x ∈ r, x < 0) ∨
         (∃ r ∈ observation_model.data, ∃ x ∈ r, x < 0)) :
    HiddenMarkov.new mlog initials transitions observation_model = none := by
  cases hn : HiddenMarkov.new mlog initials transitions observation_model with
  | none => rfl
  | some hmm =>
    have hs : (HiddenMarkov.new mlog initials transitions observation_model).isSome = true := by
      rw [hn]; rfl
    rw [HiddenMarkov.new_isSome_iff] at hs
    obtain ⟨hlen, hip, htp, hop⟩ := hs
    rw [vector_is_positive_iff] at hip
    rw [matrix_is_positive_iff] at htp
    rw [matrix_is_positive_iff] at hop
    rcases h with h | ⟨x, hx, hneg⟩ | ⟨r, hr, x, hx, hneg⟩ | ⟨r, hr, x, hx, hneg⟩
    · omega
    · exact absurd (hip x hx) (not_le.mpr hneg)
    · exact absurd (htp r hr x hx) (not_le.mpr hneg)
    · exact absurd (hop r hr x hx) (not_le.mpr hneg)

/-- C6 witness: the repo's test input with a negative initial probability. -/
theorem hmm_new_rejects_invalid_witness :
    ((Vector.mk [(0.5 : ℚ), -0.5]).len < 2 ∨
      (∃ x ∈ (Vector.mk [(0.5 : ℚ), -0.5]).data, x < 0) ∨
      (∃ r ∈ (Matrix.mk 2 2 [[(0.75 : ℚ), 0.25], [0.25, 0.75]]).data, ∃ x ∈ r, x < 0) ∨
      (∃ r ∈ (Matrix.mk 2 2 [[(0.5 : ℚ), 0.5], [0.25, 0.75]]).data, ∃ x ∈ r, x < 0)) ∧
    HiddenMarkov.new (fun x => x) (Vector.mk [(0.5 : ℚ), -0.5])
      (Matrix.mk 2 2 [[(0.75 : ℚ), 0.25], [0.25, 0.75]])
      (Matrix.mk 2 2 [[(0.5 : ℚ), 0.5], [0.25, 0.75]]) = none := by
  have hyp : (Vector.mk [(0.5 : ℚ), -0.5]).len < 2 ∨
      (∃ x ∈ (Vector.mk [(0.5 : ℚ), -0.5]).data, x < 0) ∨
      (∃ r ∈ (Matrix.mk 2 2 [[(0.75 : ℚ), 0.25], [0.25, 0.75]]).data, ∃ x ∈ r, x < 0) ∨
      (∃ r ∈ (Matrix.mk 2 2 [[(0.5 : ℚ), 0.5], [0.25, 0.75]]).data, ∃ x ∈ r, x < 0) :=
    Or.inr (Or.inl ⟨-0.5, by simp, by norm_num⟩)
  exact ⟨hyp, hmm_new_rejects_invalid _ _ _ _ hyp⟩

/-- C5: map_estimate returns the empty sequence on an empty observation list
    and on any list containing a label that is not below labels_count; the
    guards sit before the decoding loop, so no decoding happens. -/
theorem map_estimate_rejects_invalid (hmm : HiddenMarkov α) (observations : List Nat)
    (h : observations = [] ∨ ∃ x ∈ observations, hmm.labels_count ≤ x) :
    hmm.map_estimate observations = [] := by
  unfold HiddenMarkov.map_estimate
  rcases h with h | h
  · subst h; simp
  · by_cases hlen : observations.length = 0
    · simp [hlen]
    · rw [if_neg hlen, if_pos (by simpa using h)]

/-- C5 witness: an out-of-range label on a concrete 2-label model. -/
theorem map_estimate_rejects_invalid_witness :
    (([3] : List Nat) = [] ∨ ∃ x ∈ ([3] : List Nat),
      (HiddenMarkov.mk 2 2 (Vector.mk [(1 : ℤ), 1]) (Matrix.mk 2 2 [[0, 1], [1, 0]])
        (Matrix.mk 2 2 [[0, 0], [0, 0]])).labels_count ≤ x) ∧
    (HiddenMarkov.mk 2 2 (Vector.mk [(1 : ℤ), 1]) (Matrix.mk 2 2 [[0, 1], [1, 0]])
        (Matrix.mk 2 2 [[0, 0], [0, 0]])).map_estimate [3] = [] := by
  have hyp : ([3] : List Nat) = [] ∨ ∃ x ∈ ([3] : List Nat),
      (HiddenMarkov.mk 2 2 (Vector.mk [(1 : ℤ), 1]) (Matrix.mk 2 2 [[0, 1], [1, 0]])
        (Matrix.mk 2 2 [[0, 0], [0, 0]])).labels_count ≤ x := by
    exact Or.inr ⟨3, by simp, by norm_num⟩
  exact ⟨hyp, map_estimate_rejects_invalid _ _ hyp⟩

end Hmm
